import Mathlib

/-!
Verification of the `rdga_4k` synthetic-dataset generator
(src/src/rdga_4k/__init__.py) against its design specification.

The module is a pure sampling library: two dataset generators (`catbird`,
the binary generator, and `canard`, the categorical generator) and a
sample-count partitioner (`get_rate`).  The embedding below translates the
Python source directly:

* numpy's `RandomState` is modelled as an infinite entropy tape together
  with a cursor (`RState`); every primitive draw consumes tape cells in
  the exact order the source makes its calls, so the sequential draw
  discipline of the code is preserved by construction.
* the external numeric collaborators (scipy's `norm.cdf`, `math.sqrt`,
  numpy's Beta sampler) are abstract functions collected in `Env`;
  theorems quantify over them.
* Python `assert` failures (`InvalidArgument` in the spec), the
  `ValueError` raised by `max([])` / `choice` with an oversized request,
  the `IndexError` from a too-short `feat_sig`, and the failed NaN→int64
  cast in `canard` are modelled with `Except Err`.
* Python's `int(x/y)` on nonnegative ints is truncating division,
  embedded as `Int.tdiv`; `int(float)` truncation of a nonnegative
  product is `Int.toNat ∘ Int.floor`.  Real-valued quantities are
  embedded as exact rationals.
-/

/-- Failure modes of the Python code: a failed `assert` (the spec's
`InvalidArgument`), an out-of-range list index, a `ValueError` from numpy /
`max([])`, and the failed cast of a NaN produced by `pd.cut`. -/
inductive Err where
  | invalidArg
  | indexError
  | valueError
  | nanCast
deriving DecidableEq, Repr

/-- Model of a seeded `numpy.random.RandomState`: an infinite tape of
abstract entropy values and the position of the next unread cell.  A
seeded generator is determined by its tape; every draw reads cells at the
cursor and advances it. -/
structure RState where
  tape : ℕ → ℚ
  pos : ℕ

/-- Advance the entropy cursor by `k` cells. -/
def RState.advance (s : RState) (k : ℕ) : RState := ⟨s.tape, s.pos + k⟩

/-- Draw `k` consecutive entropy values (models a size-`k` sampling call
such as `random_state.normal(0, 1, k)`). -/
def drawN (k : ℕ) (s : RState) : List ℚ × RState :=
  ((List.range k).map (fun t => s.tape (s.pos + t)), s.advance k)

/-- Draw an `r × c` matrix of entropy values row-major (models
`random_state.normal(0, 1, (r, c))`). -/
def drawMat (r c : ℕ) (s : RState) : List (List ℚ) × RState :=
  match r with
  | 0 => ([], s)
  | r + 1 =>
      let p := drawN c s
      let rest := drawMat r c p.2
      (p.1 :: rest.1, rest.2)

/-- Selection of `k` distinct indices out of `avail`, one tape cell per
selected element: the cell picks a position among the remaining
candidates.  This models the external collaborator
`random_state.choice(n, size=k, replace=False)` (spec §6: uniform sampling
without replacement from an index range). -/
def pickAux : ℕ → List ℕ → RState → List ℕ × RState
  | 0, _, s => ([], s)
  | k + 1, avail, s =>
      let i := (Int.toNat ⌊s.tape s.pos * (avail.length : ℚ)⌋) % avail.length
      let rest := pickAux k (avail.eraseIdx i) (s.advance 1)
      (avail.getD i 0 :: rest.1, rest.2)

/-- Model of `random_state.choice(n, size=k, replace=False)`; numpy raises
`ValueError` when more than `n` distinct elements are requested. -/
def choiceE (n k : ℕ) (s : RState) : Except Err (List ℕ × RState) :=
  if k ≤ n then .ok (pickAux k (List.range n) s) else .error .valueError

/-- Abstract external numeric collaborators of the generators (spec §6):
the standard-normal CDF (`scipy.stats.norm.cdf`), the square root
(`math.sqrt`, irrational in general), and the Beta sampler, mapping shape
parameters `a`, `b` and one entropy cell to the sample
(`random_state.beta(a, b, 1)[0]`). -/
structure Env where
  cdf : ℚ → ℚ
  sqrt : ℕ → ℚ
  beta : ℚ → ℚ → ℚ → ℚ

/-- A Python numeric argument: either an `int` or a `float`.  The code
distinguishes them with `type(x) == int` / `type(x) == float` asserts. -/
inductive PyNum where
  | pint (n : ℤ)
  | pfloat (q : ℚ)
deriving DecidableEq, Repr

/-- Numeric value carried by a Python number. -/
def PyNum.toQ : PyNum → ℚ
  | .pint n => (n : ℚ)
  | .pfloat q => q

/-- Whether a Python number is an `int` (the `type(x) == int` test). -/
def PyNum.isInt : PyNum → Bool
  | .pint _ => true
  | .pfloat _ => false

/-- Python `min` of an integer list (0 on the empty list, on which Python
would raise; all uses are on nonempty lists). -/
def pymin : List ℤ → ℤ
  | [] => 0
  | x :: xs => xs.foldl min x

/-- Python `max` of a list of naturals (0 on the empty list, on which
Python would raise; the empty case is handled separately at use sites). -/
def pymaxN : List ℕ → ℕ
  | [] => 0
  | x :: xs => xs.foldl max x

/-- Python `range(a, b)` as a list of integers. -/
def pyRange (a b : ℤ) : List ℤ :=
  (List.range (b - a).toNat).map (fun (t : ℕ) => a + (t : ℤ))

/-! ## The binary generator `catbird` (source lines 7–78) -/

/-- Row vector times matrix: entry `u` of `A @ W` for a `1 × f` row `A`
and an `f × f` matrix `W` (source line 66). -/
def matVec (A : List ℚ) (W : List (List ℚ)) (f : ℕ) : List ℚ :=
  (List.range f).map (fun u => ((A.zip W).map (fun p => p.1 * p.2.getD u 0)).sum)

/-- Fancy assignment `result[idx] = vals` (source line 70): set each listed
position to the paired value. -/
def overwrite (r : List ℕ) : List (ℕ × ℕ) → List ℕ
  | [] => r
  | (i, v) :: rest => overwrite (r.set i v) rest

/-- One example of a `catbird` cluster (source lines 65–70): draw the row
vector `A`, project through the cluster matrix `W`, normalize by
`sqrt feat_sig` and map through the normal CDF, draw the Bernoulli(eps)
background row (`random_state.binomial(1, eps, n_feat)`: one tape cell per
feature, interpreted below its threshold), then overwrite the significant
positions with the thresholded projection `1 if x < lmbd else 0`. -/
def catbirdRow (env : Env) (nf f : ℕ) (lmbd eps : ℚ) (W : List (List ℚ))
    (idx : List ℕ) (s : RState) : List ℕ × RState :=
  let pA := drawN f s
  let A_W := matVec pA.1 W f
  let A_W_norm := A_W.map (fun x => env.cdf (x / env.sqrt f))
  let pN := drawN nf pA.2
  let result := pN.1.map (fun v => if v < eps then 1 else 0)
  let disc := A_W_norm.map (fun x => if x < lmbd then 1 else 0)
  (overwrite result (idx.zip disc), pN.2)

/-- The inner example loop of `catbird` (source line 64): `m` examples of
one cluster, in order. -/
def catbirdExamples (env : Env) (nf f : ℕ) (lmbd eps : ℚ) (W : List (List ℚ))
    (idx : List ℕ) : ℕ → RState → List (List ℕ) × RState
  | 0, s => ([], s)
  | m + 1, s =>
      let p := catbirdRow env nf f lmbd eps W idx s
      let rest := catbirdExamples env nf f lmbd eps W idx m p.2
      (p.1 :: rest.1, rest.2)

/-- The cluster loop of `catbird` (source lines 59–73): per cluster, first
the structural draws (the `feat_sig[i] × feat_sig[i]` projection matrix,
then the significant-index subset), then the per-example draws.  The label
counter `q` is incremented once per cluster; a missing `feat_sig[i]`
reproduces Python's `IndexError`. -/
def catbirdClusters (env : Env) (nf : ℕ) (lmbd eps : ℚ) :
    List ℕ → List ℕ → ℕ → RState → Except Err (List (List ℕ) × List ℕ × RState)
  | [], _, _, s => .ok ([], [], s)
  | _ :: _, [], _, _ => .error .indexError
  | m :: rest, f :: fsRest, q, s =>
      let pW := drawMat f f s
      match choiceE nf f pW.2 with
      | .error e => .error e
      | .ok (idx, s2) =>
          let pE := catbirdExamples env nf f lmbd eps pW.1 idx m s2
          match catbirdClusters env nf lmbd eps rest fsRest (q + 1) pE.2 with
          | .error e => .error e
          | .ok (X2, y2, s4) => .ok (pE.1 ++ X2, List.replicate m q ++ y2, s4)

/-- Embedding of `catbird` (source lines 7–78).  The argument checks are
the source's asserts in order: `n_feat` an int `> 1` (the int typing is
carried by the embedding type), `rate` a list, `feat_sig` a list with
`max(feat_sig) <= n_feat` (Python's `max` raises `ValueError` on an empty
list), `lmbd` and `eps` floats in `[0, 1]`. -/
def catbird (n_feat : ℤ) (feat_sig rate : List ℕ) (lmbd eps : ℚ)
    (env : Env) (s : RState) : Except Err (List (List ℕ) × List ℕ) :=
  if ¬ 1 < n_feat then .error .invalidArg
  else match feat_sig with
    | [] => .error .valueError
    | f0 :: fsR =>
      if ¬ ((pymaxN (f0 :: fsR) : ℤ) ≤ n_feat) then .error .invalidArg
      else if ¬ (0 ≤ lmbd ∧ lmbd ≤ 1) then .error .invalidArg
      else if ¬ (0 ≤ eps ∧ eps ≤ 1) then .error .invalidArg
      else
        match catbirdClusters env n_feat.toNat lmbd eps rate (f0 :: fsR) 0 s with
        | .error e => .error e
        | .ok (X, y, _) => .ok (X, y)

/-! ## The categorical generator `canard` (source lines 80–147) -/

/-- The bin edges `[i / n_cat for i in range(0, n_cat + 1)]`
(source line 127). -/
def pyBins (nc : ℕ) : List ℚ :=
  (List.range (nc + 1)).map (fun (i : ℕ) => (i : ℚ) / (nc : ℚ))

/-- One `pd.cut(x, bins=bins, labels=cats)[0]` lookup (source line 140):
the sample is assigned the first (hence unique) right-closed bin
`(bins[c], bins[c+1]]` it falls into; a sample outside every bin gets no
category (pandas yields NaN). -/
def pdCut (nc : ℕ) (x : ℚ) : Option ℕ :=
  (List.range nc).find?
    (fun c => decide ((pyBins nc).getD c 0 < x ∧ x ≤ (pyBins nc).getD (c + 1) 0))

/-- Size of the controlled-feature subset, `int(n_feat * (1 - eps))`
(source line 133): truncation of the nonnegative product. -/
def ctrlSize (nf : ℕ) (eps : ℚ) : ℕ :=
  Int.toNat ⌊(nf : ℚ) * (1 - eps)⌋

/-- The controlled-index selection of one `canard` cluster
(source line 133): `random_state.choice(n_feat, size=int(n_feat*(1-eps)),
replace=False)`. -/
def canardIdx (nf : ℕ) (eps : ℚ) (s : RState) : Except Err (List ℕ × RState) :=
  choiceE nf (ctrlSize nf eps) s

/-- The shape-parameter loop of one `canard` cluster (source lines
135–137): for each controlled index, `a[i] = 1 + lmbd * u` then
`b[i] = 1 + lmbd * u'`, one uniform draw each. -/
def shapeLoop (lmbd : ℚ) : List ℕ → List ℚ → List ℚ → RState → List ℚ × List ℚ × RState
  | [], a, b, s => (a, b, s)
  | i :: rest, a, b, s =>
      let a2 := a.set i (1 + lmbd * s.tape s.pos)
      let s1 := s.advance 1
      let b2 := b.set i (1 + lmbd * s1.tape s1.pos)
      shapeLoop lmbd rest a2 b2 (s1.advance 1)

/-- Structural parameters of one `canard` cluster (source lines 131–137):
default shapes `(1, 1)` everywhere, then the controlled subset is chosen
and its shape parameters drawn. -/
def canardShapes (nf : ℕ) (lmbd eps : ℚ) (s : RState) :
    Except Err (List ℚ × List ℚ × RState) :=
  match canardIdx nf eps s with
  | .error e => .error e
  | .ok (idx, s1) =>
      .ok (shapeLoop lmbd idx (List.replicate nf 1) (List.replicate nf 1) s1)

/-- One example row of a `canard` cluster (source line 140), iterating the
feature indices `js`: per feature one Beta draw with that feature's shape
parameters, binned by `pd.cut`.  A sample outside every bin makes the
final `np.array(..., dtype=np.int64)` cast of the NaN fail; the error is
propagated here. -/
def canardRow (env : Env) (nc : ℕ) (a b : List ℚ) :
    List ℕ → RState → Except Err (List ℕ × RState)
  | [], s => .ok ([], s)
  | j :: js, s =>
      let x := env.beta (a.getD j 1) (b.getD j 1) (s.tape s.pos)
      match pdCut nc x with
      | none => .error .nanCast
      | some c =>
          match canardRow env nc a b js (s.advance 1) with
          | .error e => .error e
          | .ok (row, s1) => .ok (c :: row, s1)

/-- The inner example loop of `canard` (source lines 139–142): `m`
examples of one cluster. -/
def canardExamples (env : Env) (nc nf : ℕ) (a b : List ℚ) :
    ℕ → RState → Except Err (List (List ℕ) × RState)
  | 0, s => .ok ([], s)
  | m + 1, s =>
      match canardRow env nc a b (List.range nf) s with
      | .error e => .error e
      | .ok (row, s1) =>
          match canardExamples env nc nf a b m s1 with
          | .error e => .error e
          | .ok (rows, s2) => .ok (row :: rows, s2)

/-- The cluster loop of `canard` (source lines 129–142): per cluster,
first the structural parameters (index subset, then shape parameters),
then the per-example draws; the label counter `q` advances per cluster. -/
def canardClusters (env : Env) (nf nc : ℕ) (lmbd eps : ℚ) :
    List ℕ → ℕ → RState → Except Err (List (List ℕ) × List ℕ × RState)
  | [], _, s => .ok ([], [], s)
  | m :: rest, q, s =>
      match canardShapes nf lmbd eps s with
      | .error e => .error e
      | .ok (a, b, s1) =>
          match canardExamples env nc nf a b m s1 with
          | .error e => .error e
          | .ok (rows, s2) =>
              match canardClusters env nf nc lmbd eps rest (q + 1) s2 with
              | .error e => .error e
              | .ok (X2, y2, s3) =>
                  .ok (rows ++ X2, List.replicate m q ++ y2, s3)

/-- Embedding of `canard` (source lines 80–147).  The argument checks are
the source's asserts in order: `n_feat` an int `> 1`, `n_cat` an int
`> 1`, `rate` a list, `lmbd` with `type(lmbd) == int and lmbd >= 1`
(an integer-typed value is required, not merely an integral number), `eps`
a float in `[0, 1]`. -/
def canard (n_feat n_cat : ℤ) (rate : List ℕ) (lmbd : PyNum) (eps : ℚ)
    (env : Env) (s : RState) : Except Err (List (List ℕ) × List ℕ) :=
  if ¬ 1 < n_feat then .error .invalidArg
  else if ¬ 1 < n_cat then .error .invalidArg
  else if ¬ (lmbd.isInt = true ∧ 1 ≤ lmbd.toQ) then .error .invalidArg
  else if ¬ (0 ≤ eps ∧ eps ≤ 1) then .error .invalidArg
  else
    match canardClusters env n_feat.toNat n_cat.toNat lmbd.toQ eps rate 0 s with
    | .error e => .error e
    | .ok (X, y, _) => .ok (X, y)

/-! ## The rate partitioner `get_rate` (source lines 151–172) -/

/-- The accumulation loop of `get_rate` (source lines 162–166): for each
`j` in turn, append `int(resto / j)` and reset `resto` to `N` minus the
running sum. -/
def rateCAux (N : ℤ) : List ℤ → ℤ → List ℤ → List ℤ × ℤ
  | rate_c, resto, [] => (rate_c, resto)
  | rate_c, resto, j :: js =>
      let rc := rate_c ++ [Int.tdiv resto j]
      rateCAux N rc (N - rc.sum) js

/-- The declining plan `rate_c` computed by `get_rate` for parameters
`N`, `k` (source lines 162–166). -/
def rate_cOf (N k : ℤ) : List ℤ :=
  (rateCAux N [] N (pyRange 2 (k + 2))).1

/-- The uniform plan `rate_s = [int(sum(rate_c)/k) for i in range(k)]`
computed by `get_rate` (source line 167). -/
def rate_sOf (N k : ℤ) : List ℤ :=
  (List.range k.toNat).map (fun _ => Int.tdiv (rate_cOf N k).sum k)

/-- Embedding of `get_rate` (source lines 151–172).  Note two source
peculiarities kept faithfully: the function returns `[rate_s, rate_c]`,
the uniform plan first; and the final check
`assert (min(rate_s) and min(rate_c)) >= n_min` uses Python's `and`,
whose value is `min(rate_s)` when that minimum is `0` and `min(rate_c)`
otherwise. -/
def get_rate (N k n_min : ℤ) : Except Err (List ℤ × List ℤ) :=
  if ¬ 1 < N then .error .invalidArg
  else if ¬ 1 < k then .error .invalidArg
  else if (if pymin (rate_sOf N k) = 0 then pymin (rate_sOf N k)
           else pymin (rate_cOf N k)) ≥ n_min then
    .ok (rate_sOf N k, rate_cOf N k)
  else .error .invalidArg

/-! ## Reasoning helpers and specification-side definitions -/

/-- Proof-side recharacterization of the `get_rate` loop: the entries it
appends, with the remainder threaded directly instead of recomputed from
the running sum. -/
def rateEntries (resto : ℤ) : List ℤ → List ℤ
  | [] => []
  | j :: js => Int.tdiv resto j :: rateEntries (resto - Int.tdiv resto j) js

/-- Consecutive integers `a, a+1, ..., a+n-1`, a proof-side view of
`pyRange`. -/
def pyRangeLen (a : ℤ) : ℕ → List ℤ
  | 0 => []
  | n + 1 => a :: pyRangeLen (a + 1) n

/-- Modelled from the spec (§4.3): the declining plan — iterate `j` from
`2` to `k+1`, at each step appending `floor(remaining / j)`, where
`remaining` starts at `N` and after each step is reset to `N` minus the
running sum of the entries assigned so far.  Stated with mathematical
floor division (`Int.fdiv`); the refinement theorems compare it with the
plan the code computes. -/
def decliningSpec (N k : ℤ) : List ℤ :=
  (pyRange 2 (k + 2)).foldl (fun acc j => acc ++ [Int.fdiv (N - acc.sum) j]) []

/-- Labels in contiguous blocks: block `i` (labels counted from `q`)
repeats the label `q + i` exactly `rate[i]` times, blocks in input
order. -/
def labelBlocksFrom (q : ℕ) (rate : List ℕ) : List ℕ :=
  (List.enumFrom q rate).flatMap (fun p => List.replicate p.2 p.1)

/-- Number of entropy cells `catbird` consumes, per cluster `(m, f)` of
`rate.zip feat_sig` in order: first the structural draws (the `f × f`
matrix, then the `f`-cell index choice), then `m` examples of
`f + n_feat` cells each. -/
def catbirdDraws (nf : ℕ) : List (ℕ × ℕ) → ℕ
  | [] => 0
  | (m, f) :: rest => (f * f + f + m * (f + nf)) + catbirdDraws nf rest

/-- Number of entropy cells `canard` consumes, per cluster count `m` in
order: first the structural draws (the controlled-index choice, then two
shape parameters per controlled feature), then `m` examples of `n_feat`
Beta cells each. -/
def canardDraws (nf : ℕ) (eps : ℚ) : List ℕ → ℕ
  | [] => 0
  | m :: rest => (ctrlSize nf eps + 2 * ctrlSize nf eps + m * nf) + canardDraws nf eps rest

/-- Concrete environment for evaluating the generators on sample inputs:
identity CDF, unit square root, Beta sampler pinned to `1/2`. -/
def halfEnv : Env := ⟨fun x => x, fun _ => 1, fun _ _ _ => 1 / 2⟩

/-- Environment whose Beta sampler always returns `0`, exhibiting the
sample that falls outside every right-closed bin. -/
def zeroBetaEnv : Env := ⟨fun x => x, fun _ => 1, fun _ _ _ => 0⟩

/-- Concrete entropy tape pinned to `1/2`, cursor at the origin. -/
def halfTape : RState := ⟨fun _ => 1 / 2, 0⟩

/-! ## Lemmas about the rate partitioner -/

lemma pyRangeLen_eq : ∀ (n : ℕ) (a : ℤ),
    (List.range n).map (fun (t : ℕ) => a + (t : ℤ)) = pyRangeLen a n := by
  intro n
  induction n with
  | zero => intro a; rfl
  | succ n ih =>
    intro a
    rw [List.range_succ_eq_map, List.map_cons, List.map_map]
    have h1 : ((fun (t : ℕ) => a + (t : ℤ)) ∘ Nat.succ) = fun t : ℕ => (a + 1) + (t : ℤ) := by
      funext t
      simp [Function.comp, Nat.succ_eq_add_one]
      ring
    rw [h1, ih]
    simp [pyRangeLen]

lemma pyRange2_eq (k : ℤ) (hk : 0 ≤ k) : pyRange 2 (k + 2) = pyRangeLen 2 k.toNat := by
  rw [pyRange]
  have h : (k + 2 - 2).toNat = k.toNat := by omega
  rw [h, pyRangeLen_eq]

lemma pyRangeLen_length (n : ℕ) : ∀ (a : ℤ), (pyRangeLen a n).length = n := by
  induction n with
  | zero => intro a; rfl
  | succ n ih => intro a; simp [pyRangeLen, ih]

lemma pyRangeLen_mem : ∀ (n : ℕ) (a j : ℤ), j ∈ pyRangeLen a n → a ≤ j := by
  intro n
  induction n with
  | zero => intro a j h; simp [pyRangeLen] at h
  | succ n ih =>
    intro a j h
    rw [pyRangeLen] at h
    rcases List.mem_cons.mp h with h | h
    · omega
    · have := ih (a + 1) j h; omega

lemma rateEntries_length : ∀ (js : List ℤ) (r : ℤ), (rateEntries r js).length = js.length := by
  intro js
  induction js with
  | nil => intro r; rfl
  | cons j js ih => intro r; simp [rateEntries, ih]

lemma rateCAux_eq (N : ℤ) : ∀ (js acc : List ℤ) (resto : ℤ), resto = N - acc.sum →
    rateCAux N acc resto js
      = (acc ++ rateEntries resto js, resto - (rateEntries resto js).sum) := by
  intro js
  induction js with
  | nil => intro acc resto h; simp [rateCAux, rateEntries]
  | cons j js ih =>
    intro acc resto h
    have hstep : rateCAux N acc resto (j :: js)
        = rateCAux N (acc ++ [Int.tdiv resto j])
            (N - (acc ++ [Int.tdiv resto j]).sum) js := rfl
    have h2 : N - (acc ++ [Int.tdiv resto j]).sum = resto - Int.tdiv resto j := by
      rw [List.sum_append]
      simp [h]
      ring
    rw [hstep, h2, ih (acc ++ [Int.tdiv resto j]) (resto - Int.tdiv resto j) h2.symm]
    simp [rateEntries, List.append_assoc]
    ring

lemma tdiv_le_self' {a b : ℤ} (h0 : 0 ≤ a) (h1 : 0 ≤ b) : Int.tdiv a b ≤ a := by
  rw [Int.tdiv_eq_ediv h0 h1]
  exact Int.ediv_le_self _ h0

lemma rateEntries_nonneg : ∀ (js : List ℤ), (∀ j ∈ js, 1 ≤ j) → ∀ r : ℤ, 0 ≤ r →
    (∀ e ∈ rateEntries r js, 0 ≤ e) ∧ 0 ≤ r - (rateEntries r js).sum := by
  intro js
  induction js with
  | nil => intro _ r hr; constructor
           · intro e he; simp [rateEntries] at he
           · simp [rateEntries]; exact hr
  | cons j js ih =>
    intro hj r hr
    have hj1 : 1 ≤ j := hj j (List.mem_cons_self _ _)
    have hd0 : 0 ≤ Int.tdiv r j := Int.tdiv_nonneg hr (by omega)
    have hdle : Int.tdiv r j ≤ r := tdiv_le_self' hr (by omega)
    have ihx := ih (fun x hx => hj x (List.mem_cons_of_mem _ hx))
      (r - Int.tdiv r j) (by omega)
    constructor
    · intro e he
      rw [rateEntries] at he
      rcases List.mem_cons.mp he with h | h
      · omega
      · exact ihx.1 e h
    · have h2 := ihx.2
      rw [rateEntries, List.sum_cons]
      omega

lemma tdiv_next_le {r j : ℤ} (hr : 0 ≤ r) (hj : 1 ≤ j) :
    Int.tdiv (r - Int.tdiv r j) (j + 1) ≤ Int.tdiv r j := by
  obtain ⟨n, rfl⟩ : ∃ n : ℕ, r = (n : ℤ) := ⟨r.toNat, (Int.toNat_of_nonneg hr).symm⟩
  obtain ⟨m, rfl⟩ : ∃ m : ℕ, j = (m : ℤ) := ⟨j.toNat, (Int.toNat_of_nonneg (by omega)).symm⟩
  have hm : 1 ≤ m := by exact_mod_cast hj
  have h1 : Int.tdiv (n : ℤ) (m : ℤ) = ((n / m : ℕ) : ℤ) := (Int.ofNat_tdiv n m).symm
  have h2 : (n : ℤ) - ((n / m : ℕ) : ℤ) = ((n - n / m : ℕ) : ℤ) :=
    (Int.ofNat_sub (Nat.div_le_self n m)).symm
  have h3 : ((m : ℤ) + 1) = ((m + 1 : ℕ) : ℤ) := by push_cast; ring
  rw [h1, h2, h3, ← Int.ofNat_tdiv]
  have key : (n - n / m) / (m + 1) ≤ n / m := by
    have hmod := Nat.div_add_mod n m
    have hlt : n % m < m := Nat.mod_lt _ (by omega)
    have hexp : m * (n / m + 1) = m * (n / m) + m := by ring
    have e1 : n < m * (n / m + 1) := by omega
    have e2 : m * (n / m + 1) ≤ (n / m + 1) * (m + 1) := by nlinarith
    have e3 : n - n / m < (n / m + 1) * (m + 1) :=
      lt_of_le_of_lt (Nat.sub_le _ _) (lt_of_lt_of_le e1 e2)
    have := (Nat.div_lt_iff_lt_mul (show 0 < m + 1 by omega)).mpr e3
    omega
  exact_mod_cast key

lemma rateEntries_chain : ∀ (n : ℕ) (a r : ℤ), 1 ≤ a → 0 ≤ r →
    List.Chain' (fun x y => y ≤ x) (rateEntries r (pyRangeLen a n)) ∧
    (∀ e ∈ (rateEntries r (pyRangeLen a n)).head?, e = Int.tdiv r a) := by
  intro n
  induction n with
  | zero => intro a r _ _; constructor
            · simp [pyRangeLen, rateEntries]
            · intro e he; simp [pyRangeLen, rateEntries] at he
  | succ n ih =>
    intro a r ha hr
    have hd0 : 0 ≤ Int.tdiv r a := Int.tdiv_nonneg hr (by omega)
    have hdle : Int.tdiv r a ≤ r := tdiv_le_self' hr (by omega)
    have ihx := ih (a + 1) (r - Int.tdiv r a) (by omega) (by omega)
    have hlist : rateEntries r (pyRangeLen a (n + 1))
        = Int.tdiv r a :: rateEntries (r - Int.tdiv r a) (pyRangeLen (a + 1) n) := rfl
    constructor
    · rw [hlist]
      refine (List.chain'_cons').mpr ⟨?_, ihx.1⟩
      intro y hy
      have hy2 := ihx.2 y hy
      rw [hy2]
      exact tdiv_next_le hr ha
    · intro e he
      rw [hlist, List.head?_cons] at he
      simp at he
      omega

lemma foldlMin_le_init : ∀ (xs : List ℤ) (x : ℤ), xs.foldl min x ≤ x := by
  intro xs
  induction xs with
  | nil => intro x; simp
  | cons y ys ih => intro x; exact le_trans (ih (min x y)) (min_le_left x y)

lemma foldlMin_le_mem : ∀ (xs : List ℤ) (x y : ℤ), y ∈ xs → xs.foldl min x ≤ y := by
  intro xs
  induction xs with
  | nil => intro x y h; simp at h
  | cons z zs ih =>
    intro x y h
    rcases List.mem_cons.mp h with h | h
    · subst h
      exact le_trans (foldlMin_le_init zs (min x y)) (min_le_right x y)
    · exact ih (min x z) y h

lemma foldlMin_mem : ∀ (xs : List ℤ) (x : ℤ), xs.foldl min x = x ∨ xs.foldl min x ∈ xs := by
  intro xs
  induction xs with
  | nil => intro x; left; rfl
  | cons z zs ih =>
    intro x
    rcases ih (min x z) with h | h
    · rcases min_choice x z with hc | hc
      · left; rw [List.foldl_cons, h, hc]
      · right; rw [List.foldl_cons, h, hc]; exact List.mem_cons_self _ _
    · right; exact List.mem_cons_of_mem _ h

lemma pymin_le {l : List ℤ} {y : ℤ} (h : y ∈ l) : pymin l ≤ y := by
  cases l with
  | nil => simp at h
  | cons x xs =>
    rcases List.mem_cons.mp h with h | h
    · subst h; exact foldlMin_le_init xs y
    · exact foldlMin_le_mem xs x y h

lemma pymin_mem {l : List ℤ} (h : l ≠ []) : pymin l ∈ l := by
  cases l with
  | nil => exact absurd rfl h
  | cons x xs =>
    rcases foldlMin_mem xs x with h2 | h2
    · rw [pymin, h2]; exact List.mem_cons_self _ _
    · exact List.mem_cons_of_mem _ (by rw [pymin]; exact h2)

lemma foldlMin_replicate (c : ℤ) : ∀ (n : ℕ), (List.replicate n c).foldl min c = c := by
  intro n
  induction n with
  | zero => rfl
  | succ n ih => rw [List.replicate_succ, List.foldl_cons, min_self]; exact ih

lemma pymin_replicate (n : ℕ) (c : ℤ) (hn : 0 < n) : pymin (List.replicate n c) = c := by
  cases n with
  | zero => omega
  | succ n => rw [List.replicate_succ, pymin]; exact foldlMin_replicate c n

lemma rate_sOf_eq (N k : ℤ) :
    rate_sOf N k = List.replicate k.toNat (Int.tdiv (rate_cOf N k).sum k) := by
  rw [rate_sOf, List.map_const', List.length_range]

lemma pymin_rate_s (N k : ℤ) (hk : 1 < k) :
    pymin (rate_sOf N k) = Int.tdiv (rate_cOf N k).sum k := by
  rw [rate_sOf_eq]
  exact pymin_replicate _ _ (by omega)

lemma rate_cOf_eq (N k : ℤ) (hk : 0 ≤ k) :
    rate_cOf N k = rateEntries N (pyRangeLen 2 k.toNat) := by
  rw [rate_cOf, pyRange2_eq k hk, rateCAux_eq N _ [] N (by simp)]
  simp

lemma pyRangeLen2_pos : ∀ j ∈ pyRangeLen 2 (Int.toNat k), (1 : ℤ) ≤ j :=
  fun j hj => le_trans (by omega) (pyRangeLen_mem _ 2 j hj)

lemma rate_cOf_props (N k : ℤ) (hN : 0 ≤ N) (hk : 0 ≤ k) :
    (rate_cOf N k).length = k.toNat ∧ (∀ e ∈ rate_cOf N k, 0 ≤ e) ∧
      List.Chain' (fun x y => y ≤ x) (rate_cOf N k) := by
  rw [rate_cOf_eq N k hk]
  exact ⟨by rw [rateEntries_length, pyRangeLen_length],
         (rateEntries_nonneg _ pyRangeLen2_pos N hN).1,
         (rateEntries_chain k.toNat 2 N (by omega) hN).1⟩

lemma sum_ge_length_mul : ∀ (l : List ℤ) (c : ℤ), (∀ x ∈ l, c ≤ x) →
    (l.length : ℤ) * c ≤ l.sum := by
  intro l
  induction l with
  | nil => intro c _; simp
  | cons x xs ih =>
    intro c h
    have hx := h x (List.mem_cons_self _ _)
    have ihx := ih c (fun y hy => h y (List.mem_cons_of_mem _ hy))
    rw [List.sum_cons, List.length_cons]
    push_cast
    nlinarith

lemma pymin_c_le_s (N k : ℤ) (hN : 1 < N) (hk : 1 < k) :
    pymin (rate_cOf N k) ≤ pymin (rate_sOf N k) ∧ 0 ≤ pymin (rate_cOf N k) := by
  obtain ⟨hlen, hnn, _⟩ := rate_cOf_props N k (by omega) (by omega)
  have hne : rate_cOf N k ≠ [] := by
    intro h
    rw [h] at hlen
    simp at hlen
    omega
  have h0 : 0 ≤ pymin (rate_cOf N k) := hnn _ (pymin_mem hne)
  refine ⟨?_, h0⟩
  have hsum : ((rate_cOf N k).length : ℤ) * pymin (rate_cOf N k) ≤ (rate_cOf N k).sum :=
    sum_ge_length_mul _ _ (fun x hx => pymin_le hx)
  have hsnn : 0 ≤ (rate_cOf N k).sum := List.sum_nonneg hnn
  rw [pymin_rate_s N k hk, Int.tdiv_eq_ediv hsnn (by omega)]
  rw [Int.le_ediv_iff_mul_le (by omega : (0:ℤ) < k)]
  have hcast : ((rate_cOf N k).length : ℤ) = k := by rw [hlen]; omega
  rw [hcast] at hsum
  linarith [hsum]

lemma declFold (N : ℤ) : ∀ (js : List ℤ), (∀ j ∈ js, 1 ≤ j) →
    ∀ (acc : List ℤ), 0 ≤ N - acc.sum →
    js.foldl (fun acc j => acc ++ [Int.fdiv (N - acc.sum) j]) acc
      = acc ++ rateEntries (N - acc.sum) js := by
  intro js
  induction js with
  | nil => intro _ acc _; simp [rateEntries]
  | cons j js ih =>
    intro hj acc hnn
    have hj1 : 1 ≤ j := hj j (List.mem_cons_self _ _)
    have hfd : Int.fdiv (N - acc.sum) j = Int.tdiv (N - acc.sum) j := by
      rw [Int.fdiv_eq_ediv _ (by omega), Int.tdiv_eq_ediv hnn (by omega)]
    have hdle : Int.tdiv (N - acc.sum) j ≤ N - acc.sum := tdiv_le_self' hnn (by omega)
    have hd0 : 0 ≤ Int.tdiv (N - acc.sum) j := Int.tdiv_nonneg hnn (by omega)
    have hsum : N - (acc ++ [Int.tdiv (N - acc.sum) j]).sum
        = (N - acc.sum) - Int.tdiv (N - acc.sum) j := by
      rw [List.sum_append]
      simp
      ring
    simp only [List.foldl_cons]
    rw [hfd]
    rw [ih (fun x hx => hj x (List.mem_cons_of_mem _ hx))
        (acc ++ [Int.tdiv (N - acc.sum) j]) (by rw [hsum]; omega)]
    rw [hsum]
    simp [rateEntries, List.append_assoc]

lemma decliningSpec_eq (N k : ℤ) (hN : 0 ≤ N) (hk : 0 ≤ k) :
    decliningSpec N k = rate_cOf N k := by
  rw [decliningSpec, rate_cOf_eq N k hk, pyRange2_eq k hk,
      declFold N _ pyRangeLen2_pos [] (by simpa using hN)]
  simp

lemma get_rate_ok_elim {N k n_min : ℤ} {p : List ℤ × List ℤ}
    (h : get_rate N k n_min = .ok p) :
    1 < N ∧ 1 < k ∧ p = (rate_sOf N k, rate_cOf N k) := by
  by_cases hN : 1 < N
  · by_cases hk : 1 < k
    · refine ⟨hN, hk, ?_⟩
      rw [get_rate, if_neg (not_not_intro hN), if_neg (not_not_intro hk)] at h
      by_cases hc : (if pymin (rate_sOf N k) = 0 then pymin (rate_sOf N k)
          else pymin (rate_cOf N k)) ≥ n_min
      · rw [if_pos hc] at h
        exact (Except.ok.injEq _ _).mp h |>.symm
      · rw [if_neg hc] at h
        exact absurd h (by simp)
    · rw [get_rate, if_neg (not_not_intro hN), if_pos hk] at h
      exact absurd h (by simp)
  · rw [get_rate, if_pos hN] at h
    exact absurd h (by simp)

/-- C4: `get_rate` fails exactly when the postcondition is violated — for
every `N > 1`, `k > 1` and `n_min`, the call succeeds precisely when both
computed plans have minimum entry at least `n_min` (the short-circuit
`(min(rate_s) and min(rate_c)) >= n_min` check is extensionally the
conjunction of the two bounds, since `min(rate_s) ≥ min(rate_c) ≥ 0`);
in particular `get_rate 10 9 5` fails. -/
theorem get_rate_postcondition_iff :
    (∀ N k n_min : ℤ, 1 < N → 1 < k →
      ((∃ p, get_rate N k n_min = .ok p) ↔
        n_min ≤ pymin (rate_sOf N k) ∧ n_min ≤ pymin (rate_cOf N k))) ∧
    get_rate 10 9 5 = .error .invalidArg := by
  constructor
  · intro N k n_min hN hk
    obtain ⟨hle, h0⟩ := pymin_c_le_s N k hN hk
    rw [get_rate, if_neg (not_not_intro hN), if_neg (not_not_intro hk)]
    by_cases hs : pymin (rate_sOf N k) = 0
    · rw [if_pos hs]
      have hc0 : pymin (rate_cOf N k) = 0 := by omega
      by_cases hcond : pymin (rate_sOf N k) ≥ n_min
      · rw [if_pos hcond]
        exact ⟨fun _ => by omega, fun _ => ⟨_, rfl⟩⟩
      · rw [if_neg hcond]
        constructor
        · rintro ⟨p, hp⟩
          exact absurd hp (by simp)
        · intro h
          omega
    · rw [if_neg hs]
      by_cases hcond : pymin (rate_cOf N k) ≥ n_min
      · rw [if_pos hcond]
        exact ⟨fun _ => by omega, fun _ => ⟨_, rfl⟩⟩
      · rw [if_neg hcond]
        constructor
        · rintro ⟨p, hp⟩
          exact absurd hp (by simp)
        · intro h
          omega
  · rfl

theorem get_rate_postcondition_iff_witness :
    ((∃ p, get_rate 100 3 0 = .ok p) ↔
      (0 : ℤ) ≤ pymin (rate_sOf 100 3) ∧ (0 : ℤ) ≤ pymin (rate_cOf 100 3)) ∧
    get_rate 10 9 5 = .error .invalidArg :=
  ⟨get_rate_postcondition_iff.1 100 3 0 (by norm_num) (by norm_num),
   get_rate_postcondition_iff.2⟩

/-- C5: on every succeeding input with `N > 1` and `k > 1`, the declining
plan computed by `get_rate` equals its specification — entry for
`j = 2, ..., k+1` is `floor(remaining / j)` with `remaining` reset to `N`
minus the running sum after each step — and every entry of the uniform
plan equals `floor(sum(declining) / k)`. -/
theorem get_rate_plans_formula :
    ∀ N k n_min : ℤ, 1 < N → 1 < k → (∃ p, get_rate N k n_min = .ok p) →
      rate_cOf N k = decliningSpec N k ∧
      ∀ x ∈ rate_sOf N k, x = Int.fdiv (rate_cOf N k).sum k := by
  intro N k n_min hN hk _
  obtain ⟨hlen, hnn, _⟩ := rate_cOf_props N k (by omega) (by omega)
  have hsnn : 0 ≤ (rate_cOf N k).sum := List.sum_nonneg hnn
  constructor
  · exact (decliningSpec_eq N k (by omega) (by omega)).symm
  · intro x hx
    rw [rate_sOf_eq] at hx
    have := List.eq_of_mem_replicate hx
    rw [this, Int.fdiv_eq_ediv _ (by omega), Int.tdiv_eq_ediv hsnn (by omega)]

theorem get_rate_plans_formula_witness :
    rate_cOf 100 3 = decliningSpec 100 3 ∧
      ∀ x ∈ rate_sOf 100 3, x = Int.fdiv (rate_cOf 100 3).sum 3 :=
  get_rate_plans_formula 100 3 0 (by norm_num) (by norm_num)
    ⟨([24, 24, 24], [50, 16, 8]), rfl⟩

/-- C6 counterexample: the claim that `get_rate` returns the pair
(declining, uniform) is false — at `N = 10`, `k = 2`, `n_min = 0` the call
returns `([3, 3], [5, 1])`, whose first component is the uniform plan
`[3, 3]` and not the declining plan, which is `[5, 1]`. -/
theorem get_rate_order_counterexample :
    get_rate 10 2 0 = .ok ([3, 3], [5, 1]) ∧
      decliningSpec 10 2 = [5, 1] ∧ ([3, 3] : List ℤ) ≠ [5, 1] :=
  ⟨rfl, rfl, by decide⟩

/-- C6 (amended): `get_rate` returns the two plans in the order
(uniform, declining) — on every succeeding input the first component is
the uniform plan (every entry `floor(sum(declining) / k)`) and the second
is the declining plan, both of length `k`. -/
theorem get_rate_component_order :
    ∀ N k n_min : ℤ, ∀ u d : List ℤ, get_rate N k n_min = .ok (u, d) →
      u = rate_sOf N k ∧ d = rate_cOf N k ∧
      u = List.replicate k.toNat (Int.tdiv d.sum k) ∧
      d = decliningSpec N k ∧ u.length = k.toNat ∧ d.length = k.toNat := by
  intro N k n_min u d h
  obtain ⟨hN, hk, hp⟩ := get_rate_ok_elim h
  have hu : u = rate_sOf N k := congrArg Prod.fst hp
  have hd : d = rate_cOf N k := congrArg Prod.snd hp
  obtain ⟨hlen, _, _⟩ := rate_cOf_props N k (by omega) (by omega)
  refine ⟨hu, hd, ?_, ?_, ?_, ?_⟩
  · rw [hu, hd, rate_sOf_eq]
  · rw [hd, decliningSpec_eq N k (by omega) (by omega)]
  · rw [hu, rate_sOf_eq, List.length_replicate]
  · rw [hd, hlen]

theorem get_rate_component_order_witness :
    ([3, 3] : List ℤ) = rate_sOf 10 2 ∧ ([5, 1] : List ℤ) = rate_cOf 10 2 ∧
      ([3, 3] : List ℤ) = List.replicate (Int.toNat 2) (Int.tdiv ([5, 1] : List ℤ).sum 2) ∧
      ([5, 1] : List ℤ) = decliningSpec 10 2 ∧
      ([3, 3] : List ℤ).length = Int.toNat 2 ∧ ([5, 1] : List ℤ).length = Int.toNat 2 :=
  get_rate_component_order 10 2 0 [3, 3] [5, 1] rfl

/-- C7: on every succeeding input with `N > 1` and `k > 1`, the declining
plan is non-increasing (each entry at most its predecessor) and all
entries of the uniform plan are equal to one another. -/
theorem get_rate_shape_properties :
    ∀ N k n_min : ℤ, 1 < N → 1 < k → (∃ p, get_rate N k n_min = .ok p) →
      List.Chain' (fun x y => y ≤ x) (rate_cOf N k) ∧
      ∀ x ∈ rate_sOf N k, ∀ y ∈ rate_sOf N k, x = y := by
  intro N k n_min hN hk _
  obtain ⟨_, _, hchain⟩ := rate_cOf_props N k (by omega) (by omega)
  refine ⟨hchain, ?_⟩
  intro x hx y hy
  rw [rate_sOf_eq] at hx hy
  rw [List.eq_of_mem_replicate hx, List.eq_of_mem_replicate hy]

theorem get_rate_shape_properties_witness :
    List.Chain' (fun x y => y ≤ x) (rate_cOf 100 3) ∧
      ∀ x ∈ rate_sOf 100 3, ∀ y ∈ rate_sOf 100 3, x = y :=
  get_rate_shape_properties 100 3 0 (by norm_num) (by norm_num)
    ⟨([24, 24, 24], [50, 16, 8]), rfl⟩

/-! ## Lemmas about the generators -/

lemma RState_determined {s1 s2 : RState} (ht : ∀ n, s1.tape n = s2.tape n)
    (hp : s1.pos = s2.pos) : s1 = s2 := by
  cases s1 with
  | mk t1 p1 =>
    cases s2 with
    | mk t2 p2 =>
      have h : t1 = t2 := funext ht
      subst h
      simp only at hp
      rw [hp]

lemma drawN_length (k : ℕ) (s : RState) : (drawN k s).1.length = k := by
  simp [drawN]

lemma drawN_pos (k : ℕ) (s : RState) : (drawN k s).2.pos = s.pos + k := rfl

lemma drawMat_pos : ∀ (r c : ℕ) (s : RState), (drawMat r c s).2.pos = s.pos + r * c := by
  intro r
  induction r with
  | zero => intro c s; simp [drawMat]
  | succ r ih =>
    intro c s
    simp [drawMat, ih, drawN, RState.advance]
    ring

lemma pickAux_length : ∀ (k : ℕ) (avail : List ℕ) (s : RState),
    (pickAux k avail s).1.length = k := by
  intro k
  induction k with
  | zero => intro avail s; rfl
  | succ k ih => intro avail s; simp [pickAux, ih]

lemma pickAux_pos : ∀ (k : ℕ) (avail : List ℕ) (s : RState),
    (pickAux k avail s).2.pos = s.pos + k := by
  intro k
  induction k with
  | zero => intro avail s; rfl
  | succ k ih =>
    intro avail s
    simp [pickAux, ih, RState.advance]
    omega

lemma choiceE_ok {n k : ℕ} (s : RState) (hk : k ≤ n) :
    choiceE n k s = .ok (pickAux k (List.range n) s) := by
  rw [choiceE, if_pos hk]

lemma choiceE_ok_elim {n k : ℕ} {s : RState} {idx : List ℕ} {s' : RState}
    (h : choiceE n k s = .ok (idx, s')) :
    k ≤ n ∧ idx = (pickAux k (List.range n) s).1 ∧ s' = (pickAux k (List.range n) s).2 := by
  by_cases hk : k ≤ n
  · rw [choiceE, if_pos hk] at h
    have h2 := (Except.ok.injEq _ _).mp h
    exact ⟨hk, (congrArg Prod.fst h2).symm, (congrArg Prod.snd h2).symm⟩
  · rw [choiceE, if_neg hk] at h
    exact absurd h (by simp)

lemma overwrite_length : ∀ (l : List (ℕ × ℕ)) (r : List ℕ),
    (overwrite r l).length = r.length := by
  intro l
  induction l with
  | nil => intro r; rfl
  | cons p rest ih =>
    intro r
    cases p with
    | mk i v => rw [overwrite, ih, List.length_set]

lemma overwrite_mem (P : ℕ → Prop) : ∀ (l : List (ℕ × ℕ)) (r : List ℕ),
    (∀ v ∈ r, P v) → (∀ p ∈ l, P p.2) → ∀ v ∈ overwrite r l, P v := by
  intro l
  induction l with
  | nil => intro r hr _ v hv; exact hr v hv
  | cons p rest ih =>
    intro r hr hl v hv
    cases p with
    | mk i w =>
      refine ih (r.set i w) ?_ (fun u hu => hl u (List.mem_cons_of_mem _ hu)) v hv
      intro u hu
      rcases List.mem_or_eq_of_mem_set hu with h | h
      · exact hr u h
      · rw [h]
        exact hl (i, w) (List.mem_cons_self _ _)

lemma catbirdRow_length (env : Env) (nf f : ℕ) (lmbd eps : ℚ) (W : List (List ℚ))
    (idx : List ℕ) (s : RState) : (catbirdRow env nf f lmbd eps W idx s).1.length = nf := by
  simp [catbirdRow, overwrite_length, drawN]

lemma catbirdRow_pos (env : Env) (nf f : ℕ) (lmbd eps : ℚ) (W : List (List ℚ))
    (idx : List ℕ) (s : RState) :
    (catbirdRow env nf f lmbd eps W idx s).2.pos = s.pos + (f + nf) := by
  simp [catbirdRow, drawN, RState.advance]
  omega

lemma catbirdRow_mem (env : Env) (nf f : ℕ) (lmbd eps : ℚ) (W : List (List ℚ))
    (idx : List ℕ) (s : RState) :
    ∀ v ∈ (catbirdRow env nf f lmbd eps W idx s).1, v = 0 ∨ v = 1 := by
  intro v hv
  rw [catbirdRow] at hv
  refine overwrite_mem (fun v => v = 0 ∨ v = 1) _ _ ?_ ?_ v hv
  · intro u hu
    obtain ⟨x, _, hx⟩ := List.mem_map.mp hu
    by_cases hc : x < eps
    · rw [← hx, if_pos hc]; right; rfl
    · rw [← hx, if_neg hc]; left; rfl
  · intro p hp
    have h2 := (List.of_mem_zip hp).2
    obtain ⟨x, _, hx⟩ := List.mem_map.mp h2
    by_cases hc : x < lmbd
    · rw [← hx, if_pos hc]; right; rfl
    · rw [← hx, if_neg hc]; left; rfl

lemma catbirdExamples_spec (env : Env) (nf f : ℕ) (lmbd eps : ℚ) (W : List (List ℚ))
    (idx : List ℕ) : ∀ (m : ℕ) (s : RState),
    (catbirdExamples env nf f lmbd eps W idx m s).1.length = m ∧
    (∀ row ∈ (catbirdExamples env nf f lmbd eps W idx m s).1,
      row.length = nf ∧ ∀ v ∈ row, v = 0 ∨ v = 1) ∧
    (catbirdExamples env nf f lmbd eps W idx m s).2.pos = s.pos + m * (f + nf) := by
  intro m
  induction m with
  | zero =>
    intro s
    refine ⟨rfl, ?_, by simp [catbirdExamples]⟩
    intro row hrow
    simp [catbirdExamples] at hrow
  | succ m ih =>
    intro s
    obtain ⟨ih1, ih2, ih3⟩ := ih ((catbirdRow env nf f lmbd eps W idx s).2)
    refine ⟨?_, ?_, ?_⟩
    · simp [catbirdExamples, ih1]
    · intro row hrow
      simp only [catbirdExamples, List.mem_cons] at hrow
      rcases hrow with h | h
      · rw [h]
        exact ⟨catbirdRow_length env nf f lmbd eps W idx s,
               catbirdRow_mem env nf f lmbd eps W idx s⟩
      · exact ih2 row h
    · simp only [catbirdExamples]
      rw [ih3, catbirdRow_pos]
      ring

lemma labelBlocksFrom_cons (q m : ℕ) (rest : List ℕ) :
    labelBlocksFrom q (m :: rest) = List.replicate m q ++ labelBlocksFrom (q + 1) rest := rfl

lemma labelBlocksFrom_length : ∀ (rate : List ℕ) (q : ℕ),
    (labelBlocksFrom q rate).length = rate.sum := by
  intro rate
  induction rate with
  | nil => intro q; rfl
  | cons m rest ih =>
    intro q
    rw [labelBlocksFrom_cons, List.length_append, List.length_replicate, ih, List.sum_cons]

lemma foldlMax_ge_init : ∀ (xs : List ℕ) (x : ℕ), x ≤ xs.foldl max x := by
  intro xs
  induction xs with
  | nil => intro x; simp
  | cons y ys ih => intro x; exact le_trans (le_max_left x y) (ih (max x y))

lemma foldlMax_ge_mem : ∀ (xs : List ℕ) (x y : ℕ), y ∈ xs → y ≤ xs.foldl max x := by
  intro xs
  induction xs with
  | nil => intro x y h; simp at h
  | cons z zs ih =>
    intro x y h
    rcases List.mem_cons.mp h with h | h
    · subst h
      exact le_trans (le_max_right x y) (foldlMax_ge_init zs (max x y))
    · exact ih (max x z) y h

lemma pymaxN_ge {l : List ℕ} {y : ℕ} (h : y ∈ l) : y ≤ pymaxN l := by
  cases l with
  | nil => simp at h
  | cons x xs =>
    rcases List.mem_cons.mp h with h | h
    · subst h; exact foldlMax_ge_init xs y
    · exact foldlMax_ge_mem xs x y h

lemma catbirdClusters_cons (env : Env) (nf : ℕ) (lmbd eps : ℚ) (m : ℕ) (rest : List ℕ)
    (f : ℕ) (fsRest : List ℕ) (q : ℕ) (s : RState) (idx : List ℕ) (s2 : RState)
    (hc : choiceE nf f (drawMat f f s).2 = .ok (idx, s2)) :
    catbirdClusters env nf lmbd eps (m :: rest) (f :: fsRest) q s =
      match catbirdClusters env nf lmbd eps rest fsRest (q + 1)
          (catbirdExamples env nf f lmbd eps (drawMat f f s).1 idx m s2).2 with
      | .error e => .error e
      | .ok (X2, y2, s4) =>
          .ok ((catbirdExamples env nf f lmbd eps (drawMat f f s).1 idx m s2).1 ++ X2,
               List.replicate m q ++ y2, s4) := by
  simp only [catbirdClusters]
  rw [hc]

lemma catbirdClusters_inv (env : Env) (nf : ℕ) (lmbd eps : ℚ) :
    ∀ (rate fs : List ℕ) (q : ℕ) (s : RState) (X : List (List ℕ)) (y : List ℕ) (s' : RState),
      catbirdClusters env nf lmbd eps rate fs q s = .ok (X, y, s') →
      X.length = rate.sum ∧
      (∀ row ∈ X, row.length = nf ∧ ∀ v ∈ row, v = 0 ∨ v = 1) ∧
      y = labelBlocksFrom q rate ∧
      s'.pos = s.pos + catbirdDraws nf (rate.zip fs) := by
  intro rate
  induction rate with
  | nil =>
    intro fs q s X y s' h
    rw [catbirdClusters] at h
    have h2 := (Except.ok.injEq _ _).mp h
    have hX : X = [] := (congrArg (fun t => t.1) h2).symm
    have hy : y = [] := (congrArg (fun t => t.2.1) h2).symm
    have hs : s' = s := (congrArg (fun t => t.2.2) h2).symm
    subst hX; subst hy; subst hs
    refine ⟨rfl, ?_, rfl, by simp [catbirdDraws]⟩
    intro row hrow
    simp at hrow
  | cons m rest ih =>
    intro fs q s X y s' h
    cases fs with
    | nil =>
      rw [catbirdClusters] at h
      exact absurd h (by simp)
    | cons f fsRest =>
      simp only [catbirdClusters] at h
      split at h
      · exact absurd h (by simp)
      · rename_i idx s2 hc
        split at h
        · exact absurd h (by simp)
        · rename_i X2 y2 s4 hrec
          have h2 := (Except.ok.injEq _ _).mp h
          have hX : X = (catbirdExamples env nf f lmbd eps (drawMat f f s).1 idx m s2).1 ++ X2 :=
            (congrArg (fun t => t.1) h2).symm
          have hy : y = List.replicate m q ++ y2 := (congrArg (fun t => t.2.1) h2).symm
          have hs : s' = s4 := (congrArg (fun t => t.2.2) h2).symm
          obtain ⟨ih1, ih2, ih3, ih4⟩ := ih fsRest (q + 1)
            (catbirdExamples env nf f lmbd eps (drawMat f f s).1 idx m s2).2 X2 y2 s4 hrec
          obtain ⟨hex1, hex2, hex3⟩ :=
            catbirdExamples_spec env nf f lmbd eps (drawMat f f s).1 idx m s2
          obtain ⟨hkn, _, hs2⟩ := choiceE_ok_elim hc
          refine ⟨?_, ?_, ?_, ?_⟩
          · rw [hX, List.length_append, hex1, ih1, List.sum_cons]
          · intro row hrow
            rw [hX] at hrow
            rcases List.mem_append.mp hrow with hr | hr
            · exact hex2 row hr
            · exact ih2 row hr
          · rw [hy, ih3, labelBlocksFrom_cons]
          · rw [hs, ih4, hex3]
            have hpos2 : s2.pos = s.pos + f * f + f := by
              rw [hs2, pickAux_pos, drawMat_pos]
            rw [hpos2, List.zip_cons_cons, catbirdDraws]
            omega

lemma catbirdClusters_ex (env : Env) (nf : ℕ) (lmbd eps : ℚ) :
    ∀ (rate fs : List ℕ) (q : ℕ) (s : RState),
      rate.length ≤ fs.length → (∀ f ∈ fs, f ≤ nf) →
      ∃ r, catbirdClusters env nf lmbd eps rate fs q s = .ok r := by
  intro rate
  induction rate with
  | nil => intro fs q s _ _; exact ⟨([], [], s), rfl⟩
  | cons m rest ih =>
    intro fs q s hlen hle
    cases fs with
    | nil => simp at hlen
    | cons f fsRest =>
      have hf : f ≤ nf := hle f (List.mem_cons_self _ _)
      have hc : choiceE nf f (drawMat f f s).2
          = .ok ((pickAux f (List.range nf) (drawMat f f s).2).1,
                 (pickAux f (List.range nf) (drawMat f f s).2).2) := choiceE_ok _ hf
      obtain ⟨⟨X2, y2, s4⟩, hr⟩ := ih fsRest (q + 1)
        (catbirdExamples env nf f lmbd eps (drawMat f f s).1
          (pickAux f (List.range nf) (drawMat f f s).2).1 m
          (pickAux f (List.range nf) (drawMat f f s).2).2).2 (by simpa using hlen)
        (fun g hg => hle g (List.mem_cons_of_mem _ hg))
      rw [catbirdClusters_cons env nf lmbd eps m rest f fsRest q s _ _ hc, hr]
      exact ⟨_, rfl⟩

lemma catbird_ok (n_feat : ℤ) (feat_sig rate : List ℕ) (lmbd eps : ℚ) (env : Env)
    (s : RState) (h1 : 1 < n_feat) (h2 : feat_sig ≠ [])
    (h3 : (pymaxN feat_sig : ℤ) ≤ n_feat) (h4 : rate.length ≤ feat_sig.length)
    (h5 : 0 ≤ lmbd) (h6 : lmbd ≤ 1) (h7 : 0 ≤ eps) (h8 : eps ≤ 1) :
    ∃ X y, catbird n_feat feat_sig rate lmbd eps env s = .ok (X, y) ∧
      X.length = rate.sum ∧ y.length = rate.sum ∧
      (∀ row ∈ X, row.length = n_feat.toNat ∧ ∀ v ∈ row, v = 0 ∨ v = 1) ∧
      y = labelBlocksFrom 0 rate := by
  cases feat_sig with
  | nil => exact absurd rfl h2
  | cons f0 fsR =>
    have hle : ∀ f ∈ f0 :: fsR, f ≤ n_feat.toNat := by
      intro f hf
      have := pymaxN_ge hf
      omega
    obtain ⟨⟨X, y, s'⟩, hr⟩ :=
      catbirdClusters_ex env n_feat.toNat lmbd eps rate (f0 :: fsR) 0 s h4 hle
    obtain ⟨hi1, hi2, hi3, _⟩ :=
      catbirdClusters_inv env n_feat.toNat lmbd eps rate (f0 :: fsR) 0 s X y s' hr
    refine ⟨X, y, ?_, hi1, ?_, hi2, hi3⟩
    · simp only [catbird]
      rw [if_neg (not_not_intro h1), if_neg (not_not_intro h3),
          if_neg (not_not_intro ⟨h5, h6⟩), if_neg (not_not_intro ⟨h7, h8⟩), hr]
    · rw [hi3, labelBlocksFrom_length]

lemma pyBins_getD {nc c : ℕ} (h : c ≤ nc) :
    (pyBins nc).getD c 0 = (c : ℚ) / (nc : ℚ) := by
  rw [pyBins, List.getD_eq_getElem?_getD, List.getElem?_map,
      List.getElem?_range (by omega : c < nc + 1)]
  rfl

lemma pdCut_some {nc c : ℕ} {x : ℚ} (h : pdCut nc x = some c) :
    c < nc ∧ (c : ℚ) / (nc : ℚ) < x ∧ x ≤ ((c : ℚ) + 1) / (nc : ℚ) := by
  have hmem := List.mem_of_find?_eq_some h
  have hp := List.find?_some h
  have hclt : c < nc := List.mem_range.mp hmem
  simp only [decide_eq_true_eq] at hp
  refine ⟨hclt, ?_, ?_⟩
  · have h1 := hp.1
    rwa [pyBins_getD (by omega : c ≤ nc)] at h1
  · have h2 := hp.2
    rw [pyBins_getD (by omega : c + 1 ≤ nc)] at h2
    push_cast at h2
    exact h2

lemma pdCut_isSome_iff {nc : ℕ} (hnc : 1 ≤ nc) (x : ℚ) :
    (pdCut nc x).isSome = true ↔ (0 < x ∧ x ≤ 1) := by
  have hncQ : (0 : ℚ) < (nc : ℚ) := by exact_mod_cast hnc
  constructor
  · intro h
    obtain ⟨c, hc⟩ := Option.isSome_iff_exists.mp h
    obtain ⟨hclt, hlo, hhi⟩ := pdCut_some hc
    constructor
    · exact lt_of_le_of_lt (div_nonneg (by positivity) (le_of_lt hncQ)) hlo
    · refine le_trans hhi ((div_le_one hncQ).mpr ?_)
      have : (c : ℚ) + 1 ≤ (nc : ℚ) := by exact_mod_cast hclt
      exact this
  · rintro ⟨hx0, hx1⟩
    have hcpos : 0 < ⌈x * (nc : ℚ)⌉ := Int.ceil_pos.mpr (mul_pos hx0 hncQ)
    have hcle : ⌈x * (nc : ℚ)⌉ ≤ (nc : ℤ) := by
      rw [Int.ceil_le]
      push_cast
      nlinarith
    have hcnn : 0 ≤ ⌈x * (nc : ℚ)⌉ - 1 := by omega
    have hcval : ((⌈x * (nc : ℚ)⌉ - 1).toNat : ℤ) = ⌈x * (nc : ℚ)⌉ - 1 :=
      Int.toNat_of_nonneg hcnn
    rw [pdCut]
    rw [List.find?_isSome]
    refine ⟨(⌈x * (nc : ℚ)⌉ - 1).toNat, List.mem_range.mpr ?_, ?_⟩
    · omega
    · have hle : (⌈x * (nc : ℚ)⌉ - 1).toNat ≤ nc := by omega
      rw [decide_eq_true_eq, pyBins_getD hle, pyBins_getD (by omega)]
      have hcastQ : (((⌈x * (nc : ℚ)⌉ - 1).toNat : ℕ) : ℚ) = (⌈x * (nc : ℚ)⌉ : ℚ) - 1 := by
        exact_mod_cast congrArg (fun z : ℤ => (z : ℚ)) hcval
      constructor
      · rw [div_lt_iff₀ hncQ, hcastQ]
        have := Int.ceil_lt_add_one (x * (nc : ℚ))
        linarith
      · rw [le_div_iff₀ hncQ]
        push_cast
        rw [hcastQ]
        have := Int.le_ceil (x * (nc : ℚ))
        linarith

lemma canardRow_inv (env : Env) (nc : ℕ) (a b : List ℚ) :
    ∀ (js : List ℕ) (s : RState) (row : List ℕ) (s' : RState),
      canardRow env nc a b js s = .ok (row, s') →
      row.length = js.length ∧ (∀ v ∈ row, v < nc) ∧ s'.pos = s.pos + js.length := by
  intro js
  induction js with
  | nil =>
    intro s row s' h
    rw [canardRow] at h
    have h2 := (Except.ok.injEq _ _).mp h
    have hrow : row = [] := (congrArg Prod.fst h2).symm
    have hs : s' = s := (congrArg Prod.snd h2).symm
    subst hrow; subst hs
    refine ⟨rfl, ?_, by simp⟩
    intro v hv
    simp at hv
  | cons j js ih =>
    intro s row s' h
    simp only [canardRow] at h
    split at h
    · exact absurd h (by simp)
    · rename_i c hc
      split at h
      · exact absurd h (by simp)
      · rename_i r2 s1 hrec
        have h2 := (Except.ok.injEq _ _).mp h
        have hrow : row = c :: r2 := (congrArg Prod.fst h2).symm
        have hs : s' = s1 := (congrArg Prod.snd h2).symm
        obtain ⟨ih1, ih2, ih3⟩ := ih (s.advance 1) r2 s1 hrec
        have hclt : c < nc := (pdCut_some hc).1
        subst hrow; subst hs
        refine ⟨by simp [ih1], ?_, ?_⟩
        · intro v hv
          rcases List.mem_cons.mp hv with h | h
          · rw [h]; exact hclt
          · exact ih2 v h
        · rw [ih3]
          simp [RState.advance]
          omega

lemma canardRow_ex (env : Env) (nc : ℕ) (a b : List ℚ) (hnc : 1 ≤ nc)
    (hbeta : ∀ p q u : ℚ, 0 < env.beta p q u ∧ env.beta p q u ≤ 1) :
    ∀ (js : List ℕ) (s : RState), ∃ row s', canardRow env nc a b js s = .ok (row, s') := by
  intro js
  induction js with
  | nil => intro s; exact ⟨[], s, rfl⟩
  | cons j js ih =>
    intro s
    obtain ⟨hb0, hb1⟩ := hbeta (a.getD j 1) (b.getD j 1) (s.tape s.pos)
    have hsome := (pdCut_isSome_iff hnc _).mpr ⟨hb0, hb1⟩
    obtain ⟨c, hc⟩ := Option.isSome_iff_exists.mp hsome
    obtain ⟨row, s', hr⟩ := ih (s.advance 1)
    refine ⟨c :: row, s', ?_⟩
    simp only [canardRow]
    rw [hc, hr]

lemma canardRow_err (env : Env) (nc : ℕ) (a b : List ℚ) :
    ∀ (js : List ℕ) (s : RState) (e : Err),
      canardRow env nc a b js s = .error e → e = .nanCast := by
  intro js
  induction js with
  | nil => intro s e h; exact absurd h (by simp [canardRow])
  | cons j js ih =>
    intro s e h
    simp only [canardRow] at h
    split at h
    · exact ((Except.error.injEq _ _).mp h).symm
    · split at h
      · rename_i e2 hrec
        have he : e2 = e := (Except.error.injEq _ _).mp h
        rw [← he]
        exact ih (s.advance 1) e2 hrec
      · exact absurd h (by simp)

lemma canardExamples_inv (env : Env) (nc nf : ℕ) (a b : List ℚ) :
    ∀ (m : ℕ) (s : RState) (rows : List (List ℕ)) (s' : RState),
      canardExamples env nc nf a b m s = .ok (rows, s') →
      rows.length = m ∧ (∀ row ∈ rows, row.length = nf ∧ ∀ v ∈ row, v < nc) ∧
      s'.pos = s.pos + m * nf := by
  intro m
  induction m with
  | zero =>
    intro s rows s' h
    rw [canardExamples] at h
    have h2 := (Except.ok.injEq _ _).mp h
    have hrows : rows = [] := (congrArg Prod.fst h2).symm
    have hs : s' = s := (congrArg Prod.snd h2).symm
    subst hrows; subst hs
    refine ⟨rfl, ?_, by simp⟩
    intro row hrow
    simp at hrow
  | succ m ih =>
    intro s rows s' h
    simp only [canardExamples] at h
    split at h
    · exact absurd h (by simp)
    · rename_i row s1 hrow
      split at h
      · exact absurd h (by simp)
      · rename_i rows2 s2 hrec
        have h2 := (Except.ok.injEq _ _).mp h
        have hrows : rows = row :: rows2 := (congrArg Prod.fst h2).symm
        have hs : s' = s2 := (congrArg Prod.snd h2).symm
        obtain ⟨hr1, hr2, hr3⟩ := canardRow_inv env nc a b (List.range nf) s row s1 hrow
        obtain ⟨ih1, ih2, ih3⟩ := ih s1 rows2 s2 hrec
        subst hrows; subst hs
        refine ⟨by simp [ih1], ?_, ?_⟩
        · intro r hr
          rcases List.mem_cons.mp hr with h | h
          · rw [h]
            exact ⟨by rw [hr1, List.length_range], hr2⟩
          · exact ih2 r h
        · rw [ih3, hr3, List.length_range]
          have hmul : (m + 1) * nf = m * nf + nf := by ring
          omega

lemma canardExamples_ex (env : Env) (nc nf : ℕ) (a b : List ℚ) (hnc : 1 ≤ nc)
    (hbeta : ∀ p q u : ℚ, 0 < env.beta p q u ∧ env.beta p q u ≤ 1) :
    ∀ (m : ℕ) (s : RState), ∃ rows s', canardExamples env nc nf a b m s = .ok (rows, s') := by
  intro m
  induction m with
  | zero => intro s; exact ⟨[], s, rfl⟩
  | succ m ih =>
    intro s
    obtain ⟨row, s1, hrow⟩ := canardRow_ex env nc a b hnc hbeta (List.range nf) s
    obtain ⟨rows, s2, hrec⟩ := ih s1
    refine ⟨row :: rows, s2, ?_⟩
    simp only [canardExamples]
    rw [hrow]
    show (match canardExamples env nc nf a b m s1 with
      | Except.error e => Except.error e
      | Except.ok (rows, s2) => Except.ok (row :: rows, s2)) = Except.ok (row :: rows, s2)
    rw [hrec]

lemma canardExamples_err (env : Env) (nc nf : ℕ) (a b : List ℚ) :
    ∀ (m : ℕ) (s : RState) (e : Err),
      canardExamples env nc nf a b m s = .error e → e = .nanCast := by
  intro m
  induction m with
  | zero => intro s e h; exact absurd h (by simp [canardExamples])
  | succ m ih =>
    intro s e h
    simp only [canardExamples] at h
    split at h
    · rename_i e2 hrow
      have he : e2 = e := (Except.error.injEq _ _).mp h
      rw [← he]
      exact canardRow_err env nc a b (List.range nf) s e2 hrow
    · split at h
      · rename_i e2 hrec
        have he : e2 = e := (Except.error.injEq _ _).mp h
        rw [← he]
        exact ih _ e2 hrec
      · exact absurd h (by simp)

lemma shapeLoop_pos (lmbd : ℚ) : ∀ (idx : List ℕ) (a b : List ℚ) (s : RState),
    (shapeLoop lmbd idx a b s).2.2.pos = s.pos + 2 * idx.length := by
  intro idx
  induction idx with
  | nil => intro a b s; simp [shapeLoop]
  | cons i rest ih =>
    intro a b s
    simp only [shapeLoop]
    rw [ih]
    simp [RState.advance]
    omega

lemma ctrlSize_le (nf : ℕ) {eps : ℚ} (h : 0 ≤ eps) : ctrlSize nf eps ≤ nf := by
  rw [ctrlSize, Int.toNat_le]
  calc ⌊(nf : ℚ) * (1 - eps)⌋ ≤ ⌊(nf : ℚ)⌋ := by
        refine Int.floor_le_floor ?_
        have hnf : (0 : ℚ) ≤ (nf : ℚ) := by positivity
        nlinarith
  _ = (nf : ℤ) := Int.floor_natCast nf

lemma canardShapes_ok (nf : ℕ) (lmbd : ℚ) {eps : ℚ} (heps : 0 ≤ eps) (s : RState) :
    ∃ a b s1, canardShapes nf lmbd eps s = .ok (a, b, s1) := by
  have hle : ctrlSize nf eps ≤ nf := ctrlSize_le nf heps
  have hc : canardIdx nf eps s
      = .ok ((pickAux (ctrlSize nf eps) (List.range nf) s).1,
             (pickAux (ctrlSize nf eps) (List.range nf) s).2) := choiceE_ok _ hle
  refine ⟨(shapeLoop lmbd (pickAux (ctrlSize nf eps) (List.range nf) s).1
      (List.replicate nf 1) (List.replicate nf 1)
      (pickAux (ctrlSize nf eps) (List.range nf) s).2).1,
    (shapeLoop lmbd (pickAux (ctrlSize nf eps) (List.range nf) s).1
      (List.replicate nf 1) (List.replicate nf 1)
      (pickAux (ctrlSize nf eps) (List.range nf) s).2).2.1,
    (shapeLoop lmbd (pickAux (ctrlSize nf eps) (List.range nf) s).1
      (List.replicate nf 1) (List.replicate nf 1)
      (pickAux (ctrlSize nf eps) (List.range nf) s).2).2.2, ?_⟩
  simp only [canardShapes]
  rw [hc]

lemma canardShapes_ok_elim {nf : ℕ} {lmbd eps : ℚ} {s : RState} {a b : List ℚ}
    {s1 : RState} (h : canardShapes nf lmbd eps s = .ok (a, b, s1)) :
    s1.pos = s.pos + 3 * ctrlSize nf eps := by
  rw [canardShapes] at h
  split at h
  · exact absurd h (by simp)
  · rename_i idx s0 hidx
    have h2 := (Except.ok.injEq _ _).mp h
    have hs1 : s1 = (shapeLoop lmbd idx (List.replicate nf 1) (List.replicate nf 1) s0).2.2 :=
      (congrArg (fun t => t.2.2) h2).symm
    obtain ⟨_, hidx1, hs0⟩ := choiceE_ok_elim hidx
    rw [hs1, shapeLoop_pos, hidx1, pickAux_length, hs0, pickAux_pos]
    omega

lemma canardShapes_err {nf : ℕ} {lmbd eps : ℚ} {s : RState} {e : Err}
    (h : canardShapes nf lmbd eps s = .error e) : e = .valueError := by
  rw [canardShapes] at h
  split at h
  · rename_i e2 hidx
    have he : e2 = e := (Except.error.injEq _ _).mp h
    rw [canardIdx, choiceE] at hidx
    by_cases hle : ctrlSize nf eps ≤ nf
    · rw [if_pos hle] at hidx
      exact absurd hidx (by simp)
    · rw [if_neg hle] at hidx
      have h3 := (Except.error.injEq _ _).mp hidx
      rw [← he, ← h3]
  · exact absurd h (by simp)

lemma canardClusters_cons (env : Env) (nf nc : ℕ) (lmbd eps : ℚ) (m : ℕ)
    (rest : List ℕ) (q : ℕ) (s : RState) (a b : List ℚ) (s1 : RState)
    (rows : List (List ℕ)) (s2 : RState)
    (hsh : canardShapes nf lmbd eps s = .ok (a, b, s1))
    (hex : canardExamples env nc nf a b m s1 = .ok (rows, s2)) :
    canardClusters env nf nc lmbd eps (m :: rest) q s =
      match canardClusters env nf nc lmbd eps rest (q + 1) s2 with
      | .error e => .error e
      | .ok (X2, y2, s3) => .ok (rows ++ X2, List.replicate m q ++ y2, s3) := by
  simp only [canardClusters]
  rw [hsh]
  show (match canardExamples env nc nf a b m s1 with
    | Except.error e => Except.error e
    | Except.ok (rows, s2) =>
        match canardClusters env nf nc lmbd eps rest (q + 1) s2 with
        | Except.error e => Except.error e
        | Except.ok (X2, y2, s3) =>
            Except.ok (rows ++ X2, List.replicate m q ++ y2, s3)) =
    match canardClusters env nf nc lmbd eps rest (q + 1) s2 with
    | Except.error e => Except.error e
    | Except.ok (X2, y2, s3) => Except.ok (rows ++ X2, List.replicate m q ++ y2, s3)
  rw [hex]

lemma canardClusters_inv (env : Env) (nf nc : ℕ) (lmbd eps : ℚ) :
    ∀ (rate : List ℕ) (q : ℕ) (s : RState) (X : List (List ℕ)) (y : List ℕ) (s' : RState),
      canardClusters env nf nc lmbd eps rate q s = .ok (X, y, s') →
      X.length = rate.sum ∧ (∀ row ∈ X, row.length = nf ∧ ∀ v ∈ row, v < nc) ∧
      y = labelBlocksFrom q rate ∧ s'.pos = s.pos + canardDraws nf eps rate := by
  intro rate
  induction rate with
  | nil =>
    intro q s X y s' h
    rw [canardClusters] at h
    have h2 := (Except.ok.injEq _ _).mp h
    have hX : X = [] := (congrArg (fun t => t.1) h2).symm
    have hy : y = [] := (congrArg (fun t => t.2.1) h2).symm
    have hs : s' = s := (congrArg (fun t => t.2.2) h2).symm
    subst hX; subst hy; subst hs
    refine ⟨rfl, ?_, rfl, by simp [canardDraws]⟩
    intro row hrow
    simp at hrow
  | cons m rest ih =>
    intro q s X y s' h
    simp only [canardClusters] at h
    split at h
    · exact absurd h (by simp)
    · rename_i a b s1 hsh
      split at h
      · exact absurd h (by simp)
      · rename_i rows s2 hex
        split at h
        · exact absurd h (by simp)
        · rename_i X2 y2 s3 hrec
          have h2 := (Except.ok.injEq _ _).mp h
          have hX : X = rows ++ X2 := (congrArg (fun t => t.1) h2).symm
          have hy : y = List.replicate m q ++ y2 := (congrArg (fun t => t.2.1) h2).symm
          have hs : s' = s3 := (congrArg (fun t => t.2.2) h2).symm
          obtain ⟨he1, he2, he3⟩ := canardExamples_inv env nc nf a b m s1 rows s2 hex
          obtain ⟨ih1, ih2, ih3, ih4⟩ := ih (q + 1) s2 X2 y2 s3 hrec
          have hshp := canardShapes_ok_elim hsh
          refine ⟨?_, ?_, ?_, ?_⟩
          · rw [hX, List.length_append, he1, ih1, List.sum_cons]
          · intro row hrow
            rw [hX] at hrow
            rcases List.mem_append.mp hrow with hr | hr
            · exact he2 row hr
            · exact ih2 row hr
          · rw [hy, ih3, labelBlocksFrom_cons]
          · rw [hs, ih4, he3, hshp, canardDraws]
            omega

lemma canardClusters_ex (env : Env) (nf nc : ℕ) (lmbd eps : ℚ) (hnc : 1 ≤ nc)
    (heps : 0 ≤ eps)
    (hbeta : ∀ p q u : ℚ, 0 < env.beta p q u ∧ env.beta p q u ≤ 1) :
    ∀ (rate : List ℕ) (q : ℕ) (s : RState),
      ∃ r, canardClusters env nf nc lmbd eps rate q s = .ok r := by
  intro rate
  induction rate with
  | nil => intro q s; exact ⟨([], [], s), rfl⟩
  | cons m rest ih =>
    intro q s
    obtain ⟨a, b, s1, hsh⟩ := canardShapes_ok nf lmbd heps s
    obtain ⟨rows, s2, hex⟩ := canardExamples_ex env nc nf a b hnc hbeta m s1
    obtain ⟨⟨X2, y2, s3⟩, hrec⟩ := ih (q + 1) s2
    rw [canardClusters_cons env nf nc lmbd eps m rest q s a b s1 rows s2 hsh hex, hrec]
    exact ⟨_, rfl⟩

lemma canardClusters_err (env : Env) (nf nc : ℕ) (lmbd eps : ℚ) :
    ∀ (rate : List ℕ) (q : ℕ) (s : RState) (e : Err),
      canardClusters env nf nc lmbd eps rate q s = .error e →
      e = .valueError ∨ e = .nanCast := by
  intro rate
  induction rate with
  | nil => intro q s e h; exact absurd h (by simp [canardClusters])
  | cons m rest ih =>
    intro q s e h
    simp only [canardClusters] at h
    split at h
    · rename_i e2 hsh
      have he : e2 = e := (Except.error.injEq _ _).mp h
      rw [← he]
      exact Or.inl (canardShapes_err hsh)
    · rename_i a b s1 hsh
      split at h
      · rename_i e2 hex
        have he : e2 = e := (Except.error.injEq _ _).mp h
        rw [← he]
        exact Or.inr (canardExamples_err env nc nf a b m s1 e2 hex)
      · rename_i rows s2 hex
        split at h
        · rename_i e2 hrec
          have he : e2 = e := (Except.error.injEq _ _).mp h
          rw [← he]
          exact ih (q + 1) s2 e2 hrec
        · exact absurd h (by simp)

lemma canard_ok (n_feat n_cat : ℤ) (rate : List ℕ) (lmbd : ℤ) (eps : ℚ) (env : Env)
    (s : RState) (h1 : 1 < n_feat) (h2 : 1 < n_cat) (h3 : 1 ≤ lmbd)
    (h4 : 0 ≤ eps) (h5 : eps ≤ 1)
    (hbeta : ∀ p q u : ℚ, 0 < env.beta p q u ∧ env.beta p q u ≤ 1) :
    ∃ X y, canard n_feat n_cat rate (.pint lmbd) eps env s = .ok (X, y) ∧
      X.length = rate.sum ∧ y.length = rate.sum ∧
      (∀ row ∈ X, row.length = n_feat.toNat ∧ ∀ v ∈ row, v < n_cat.toNat) ∧
      y = labelBlocksFrom 0 rate := by
  have hnc : 1 ≤ n_cat.toNat := by omega
  obtain ⟨⟨X, y, s'⟩, hr⟩ := canardClusters_ex env n_feat.toNat n_cat.toNat
    ((PyNum.pint lmbd).toQ) eps hnc h4 hbeta rate 0 s
  obtain ⟨hi1, hi2, hi3, _⟩ := canardClusters_inv env n_feat.toNat n_cat.toNat
    ((PyNum.pint lmbd).toQ) eps rate 0 s X y s' hr
  refine ⟨X, y, ?_, hi1, ?_, hi2, hi3⟩
  · have hl : (PyNum.pint lmbd).isInt = true ∧ 1 ≤ (PyNum.pint lmbd).toQ := by
      refine ⟨rfl, ?_⟩
      show (1 : ℚ) ≤ (lmbd : ℚ)
      exact_mod_cast h3
    rw [canard, if_neg (not_not_intro h1), if_neg (not_not_intro h2),
        if_neg (not_not_intro hl), if_neg (not_not_intro ⟨h4, h5⟩), hr]
  · rw [hi3, labelBlocksFrom_length]

/-- C1: for every valid input both generators return a pair `(X, y)` with
`len(X) = len(y) = sum(rate)`, every row of `X` of length exactly
`n_feat`, and `y` equal to the contiguous label blocks in input order —
block `i` repeats label `i` exactly `rate[i]` times, so `y` is
non-decreasing and (for positive rates) takes exactly the values
`0 … len(rate)-1`.  For `canard`, totality additionally assumes every
Beta sample lies in `(0, 1]` (compare C10). -/
theorem generators_shape_and_labels :
    (∀ (n_feat : ℤ) (feat_sig rate : List ℕ) (lmbd eps : ℚ) (env : Env) (s : RState),
      1 < n_feat → feat_sig ≠ [] → (pymaxN feat_sig : ℤ) ≤ n_feat →
      rate.length ≤ feat_sig.length → 0 ≤ lmbd → lmbd ≤ 1 → 0 ≤ eps → eps ≤ 1 →
      ∃ X y, catbird n_feat feat_sig rate lmbd eps env s = .ok (X, y) ∧
        X.length = rate.sum ∧ y.length = rate.sum ∧
        (∀ row ∈ X, row.length = n_feat.toNat) ∧ y = labelBlocksFrom 0 rate) ∧
    (∀ (n_feat n_cat : ℤ) (rate : List ℕ) (lmbd : ℤ) (eps : ℚ) (env : Env) (s : RState),
      1 < n_feat → 1 < n_cat → 1 ≤ lmbd → 0 ≤ eps → eps ≤ 1 →
      (∀ p q u : ℚ, 0 < env.beta p q u ∧ env.beta p q u ≤ 1) →
      ∃ X y, canard n_feat n_cat rate (.pint lmbd) eps env s = .ok (X, y) ∧
        X.length = rate.sum ∧ y.length = rate.sum ∧
        (∀ row ∈ X, row.length = n_feat.toNat) ∧ y = labelBlocksFrom 0 rate) := by
  constructor
  · intro n_feat feat_sig rate lmbd eps env s h1 h2 h3 h4 h5 h6 h7 h8
    obtain ⟨X, y, hok, hx, hy, hrow, hlab⟩ :=
      catbird_ok n_feat feat_sig rate lmbd eps env s h1 h2 h3 h4 h5 h6 h7 h8
    exact ⟨X, y, hok, hx, hy, fun row hr => (hrow row hr).1, hlab⟩
  · intro n_feat n_cat rate lmbd eps env s h1 h2 h3 h4 h5 hbeta
    obtain ⟨X, y, hok, hx, hy, hrow, hlab⟩ :=
      canard_ok n_feat n_cat rate lmbd eps env s h1 h2 h3 h4 h5 hbeta
    exact ⟨X, y, hok, hx, hy, fun row hr => (hrow row hr).1, hlab⟩

theorem generators_shape_and_labels_witness :
    (∃ X y, catbird 2 [1] [1] (1/2) (1/2) halfEnv halfTape = .ok (X, y) ∧
      X.length = [1].sum ∧ y.length = [1].sum ∧
      (∀ row ∈ X, row.length = (2 : ℤ).toNat) ∧ y = labelBlocksFrom 0 [1]) ∧
    (∃ X y, canard 3 2 [1] (.pint 2) (1/2) halfEnv halfTape = .ok (X, y) ∧
      X.length = [1].sum ∧ y.length = [1].sum ∧
      (∀ row ∈ X, row.length = (3 : ℤ).toNat) ∧ y = labelBlocksFrom 0 [1]) :=
  ⟨generators_shape_and_labels.1 2 [1] [1] (1/2) (1/2) halfEnv halfTape
    (by norm_num) (by simp) (by decide) (by decide)
    (by norm_num) (by norm_num) (by norm_num) (by norm_num),
   generators_shape_and_labels.2 3 2 [1] 2 (1/2) halfEnv halfTape
    (by norm_num) (by norm_num) (by norm_num) (by norm_num) (by norm_num)
    (fun p q u => by constructor <;> norm_num [halfEnv])⟩

/-- C2: whenever `catbird` returns a dataset, every entry of `X` is 0 or
1; whenever `canard` returns a dataset, every entry of `X` is a category
index in `{0, …, n_cat-1}`. -/
theorem generators_entry_ranges :
    (∀ (n_feat : ℤ) (feat_sig rate : List ℕ) (lmbd eps : ℚ) (env : Env) (s : RState)
       (X : List (List ℕ)) (y : List ℕ),
      catbird n_feat feat_sig rate lmbd eps env s = .ok (X, y) →
      ∀ row ∈ X, ∀ v ∈ row, v = 0 ∨ v = 1) ∧
    (∀ (n_feat n_cat : ℤ) (rate : List ℕ) (lmbd : PyNum) (eps : ℚ) (env : Env) (s : RState)
       (X : List (List ℕ)) (y : List ℕ),
      canard n_feat n_cat rate lmbd eps env s = .ok (X, y) →
      ∀ row ∈ X, ∀ v ∈ row, v < n_cat.toNat) := by
  constructor
  · intro n_feat feat_sig rate lmbd eps env s X y h
    simp only [catbird] at h
    split at h
    · exact absurd h (by simp)
    · split at h
      · exact absurd h (by simp)
      · rename_i f0 fsR
        split at h
        · exact absurd h (by simp)
        · split at h
          · exact absurd h (by simp)
          · split at h
            · exact absurd h (by simp)
            · split at h
              · exact absurd h (by simp)
              · rename_i X0 y0 s' hrec
                have h2 := (Except.ok.injEq _ _).mp h
                have hX : X = X0 := (congrArg Prod.fst h2).symm
                intro row hrow v hv
                rw [hX] at hrow
                exact ((catbirdClusters_inv env n_feat.toNat lmbd eps rate
                  (f0 :: fsR) 0 s X0 y0 s' hrec).2.1 row hrow).2 v hv
  · intro n_feat n_cat rate lmbd eps env s X y h
    simp only [canard] at h
    split at h
    · exact absurd h (by simp)
    · split at h
      · exact absurd h (by simp)
      · split at h
        · exact absurd h (by simp)
        · split at h
          · exact absurd h (by simp)
          · split at h
            · exact absurd h (by simp)
            · rename_i X0 y0 s' hrec
              have h2 := (Except.ok.injEq _ _).mp h
              have hX : X = X0 := (congrArg Prod.fst h2).symm
              intro row hrow v hv
              rw [hX] at hrow
              exact ((canardClusters_inv env n_feat.toNat n_cat.toNat lmbd.toQ eps
                rate 0 s X0 y0 s' hrec).2.1 row hrow).2 v hv

theorem generators_entry_ranges_witness :
    (∃ X y, catbird 2 [1] [1] 0 1 halfEnv halfTape = .ok (X, y) ∧
      ∀ row ∈ X, ∀ v ∈ row, v = 0 ∨ v = 1) ∧
    (∃ X y, canard 3 2 [1] (.pint 2) (1/2) halfEnv halfTape = .ok (X, y) ∧
      ∀ row ∈ X, ∀ v ∈ row, v < (2 : ℤ).toNat) := by
  constructor
  · obtain ⟨X, y, hok, _⟩ := catbird_ok 2 [1] [1] 0 1 halfEnv halfTape (by norm_num)
      (by simp) (by decide) (by decide) le_rfl (by norm_num) (by norm_num) le_rfl
    exact ⟨X, y, hok, generators_entry_ranges.1 2 [1] [1] 0 1 halfEnv halfTape X y hok⟩
  · obtain ⟨X, y, hok, _⟩ := canard_ok 3 2 [1] 2 (1/2) halfEnv halfTape (by norm_num)
      (by norm_num) (by norm_num) (by norm_num) (by norm_num)
      (fun p q u => by constructor <;> norm_num [halfEnv])
    exact ⟨X, y, hok,
      generators_entry_ranges.2 3 2 [1] (.pint 2) (1/2) halfEnv halfTape X y hok⟩

/-- C3: all three operations are deterministic given the seed — they are
pure functions of their arguments and the seeded entropy tape, so states
with pointwise-equal tapes and equal cursors yield identical outputs
(`get_rate` consumes no randomness at all) — and the draws are consumed
strictly sequentially in the fixed order: on success the cursor of each
generator's cluster loop has advanced by exactly the per-cluster count of
structural draws (projection matrix or shape parameters, and the index
subset) followed by the per-example draws, in input order
(`catbirdDraws` / `canardDraws`). -/
theorem operations_deterministic :
    (∀ (n_feat : ℤ) (feat_sig rate : List ℕ) (lmbd eps : ℚ) (env : Env) (s1 s2 : RState),
      (∀ n, s1.tape n = s2.tape n) → s1.pos = s2.pos →
      catbird n_feat feat_sig rate lmbd eps env s1
        = catbird n_feat feat_sig rate lmbd eps env s2) ∧
    (∀ (n_feat n_cat : ℤ) (rate : List ℕ) (lmbd : PyNum) (eps : ℚ) (env : Env)
       (s1 s2 : RState),
      (∀ n, s1.tape n = s2.tape n) → s1.pos = s2.pos →
      canard n_feat n_cat rate lmbd eps env s1 = canard n_feat n_cat rate lmbd eps env s2) ∧
    (∀ N k n_min : ℤ, get_rate N k n_min = get_rate N k n_min) ∧
    (∀ (env : Env) (nf : ℕ) (lmbd eps : ℚ) (rate fs : List ℕ) (q : ℕ) (s : RState)
       (X : List (List ℕ)) (y : List ℕ) (s' : RState),
      catbirdClusters env nf lmbd eps rate fs q s = .ok (X, y, s') →
      s'.pos = s.pos + catbirdDraws nf (rate.zip fs)) ∧
    (∀ (env : Env) (nf nc : ℕ) (lmbd eps : ℚ) (rate : List ℕ) (q : ℕ) (s : RState)
       (X : List (List ℕ)) (y : List ℕ) (s' : RState),
      canardClusters env nf nc lmbd eps rate q s = .ok (X, y, s') →
      s'.pos = s.pos + canardDraws nf eps rate) := by
  refine ⟨?_, ?_, fun _ _ _ => rfl, ?_, ?_⟩
  · intro n_feat feat_sig rate lmbd eps env s1 s2 ht hp
    rw [RState_determined ht hp]
  · intro n_feat n_cat rate lmbd eps env s1 s2 ht hp
    rw [RState_determined ht hp]
  · intro env nf lmbd eps rate fs q s X y s' h
    exact (catbirdClusters_inv env nf lmbd eps rate fs q s X y s' h).2.2.2
  · intro env nf nc lmbd eps rate q s X y s' h
    exact (canardClusters_inv env nf nc lmbd eps rate q s X y s' h).2.2.2

theorem operations_deterministic_witness :
    catbird 2 [1] [1] 0 1 halfEnv halfTape = catbird 2 [1] [1] 0 1 halfEnv halfTape ∧
    canard 3 2 [1] (.pint 2) (1/2) halfEnv halfTape
      = canard 3 2 [1] (.pint 2) (1/2) halfEnv halfTape :=
  ⟨operations_deterministic.1 2 [1] [1] 0 1 halfEnv halfTape halfTape
     (fun _ => rfl) rfl,
   operations_deterministic.2.1 3 2 [1] (.pint 2) (1/2) halfEnv halfTape halfTape
     (fun _ => rfl) rfl⟩

lemma canard_invalid_iff_aux (n_feat n_cat : ℤ) (rate : List ℕ) (lmbd : PyNum)
    (eps : ℚ) (env : Env) (s : RState) :
    canard n_feat n_cat rate lmbd eps env s = .error .invalidArg ↔
      (n_feat ≤ 1 ∨ n_cat ≤ 1 ∨ lmbd.isInt = false ∨ lmbd.toQ < 1 ∨ eps < 0 ∨ 1 < eps) := by
  constructor
  · intro h
    by_contra hcon
    push_neg at hcon
    obtain ⟨hnf, hnc, hint, hlm, he0, he1⟩ := hcon
    have hint' : lmbd.isInt = true := by
      cases hb : lmbd.isInt
      · exact absurd hb hint
      · rfl
    rw [canard, if_neg (not_not_intro (by omega : 1 < n_feat)),
        if_neg (not_not_intro (by omega : 1 < n_cat)),
        if_neg (not_not_intro ⟨hint', by linarith⟩),
        if_neg (not_not_intro ⟨by linarith, by linarith⟩)] at h
    split at h
    · rename_i e2 hrec
      have he : e2 = .invalidArg := (Except.error.injEq _ _).mp h
      rcases canardClusters_err env n_feat.toNat n_cat.toNat lmbd.toQ eps
        rate 0 s e2 hrec with h2 | h2 <;> rw [he] at h2 <;> exact absurd h2 (by simp)
    · exact absurd h (by simp)
  · intro hdisj
    rw [canard]
    by_cases h1 : 1 < n_feat
    · rw [if_neg (not_not_intro h1)]
      by_cases h2 : 1 < n_cat
      · rw [if_neg (not_not_intro h2)]
        by_cases h3 : lmbd.isInt = true ∧ 1 ≤ lmbd.toQ
        · rw [if_neg (not_not_intro h3)]
          by_cases h4 : 0 ≤ eps ∧ eps ≤ 1
          · exfalso
            rcases hdisj with h | h | h | h | h | h
            · omega
            · omega
            · rw [h3.1] at h
              exact absurd h (by simp)
            · linarith [h3.2]
            · linarith [h4.1]
            · linarith [h4.2]
          · rw [if_pos h4]
        · rw [if_pos h3]
      · rw [if_pos h2]
    · rw [if_pos h1]

/-- C8 counterexample: the claim that `canard` accepts every numeric
`lmbd ≥ 1` including the float `10.0` is false — the
`type(lmbd) == int` assert rejects a float-typed `10.0` even though its
value is `≥ 1`, so the call fails with `InvalidArgument`. -/
theorem canard_float_lmbd_counterexample :
    canard 10 3 [1] (.pfloat 10) (3/10) halfEnv halfTape = .error .invalidArg ∧
    (1 : ℚ) ≤ (PyNum.pfloat 10).toQ :=
  ⟨(canard_invalid_iff_aux 10 3 [1] (.pfloat 10) (3/10) halfEnv halfTape).mpr
     (Or.inr (Or.inr (Or.inl rfl))),
   by norm_num [PyNum.toQ]⟩

/-- C8 (amended): `canard` requires an integer-typed `lmbd`; it fails with
`InvalidArgument` exactly when `n_feat ≤ 1`, `n_cat ≤ 1`, `lmbd` is not an
`int` or `lmbd < 1`, or `eps` is outside `[0, 1]` (over well-typed
remaining arguments) — in particular every float `lmbd`, such as `10.0`,
is rejected. -/
theorem canard_invalidArg_iff :
    ∀ (n_feat n_cat : ℤ) (rate : List ℕ) (lmbd : PyNum) (eps : ℚ) (env : Env) (s : RState),
      canard n_feat n_cat rate lmbd eps env s = .error .invalidArg ↔
        (n_feat ≤ 1 ∨ n_cat ≤ 1 ∨ lmbd.isInt = false ∨ lmbd.toQ < 1 ∨ eps < 0 ∨ 1 < eps) :=
  canard_invalid_iff_aux

/-- C9: per cluster the controlled-index subset of `canard` has size
exactly `int(n_feat * (1 - eps)) = ⌊n_feat * (1 - eps)⌋` for every
`eps ∈ [0, 1]`; with `eps = 1` the size is `0`, the structural step
returns the default shape parameters `(1, 1)` for every feature of the
cluster, and the generator as a whole does not fail. -/
theorem canard_controlled_subset :
    (∀ (nf : ℕ) (eps : ℚ) (s : RState), 0 ≤ eps → eps ≤ 1 →
      ∃ idx s', canardIdx nf eps s = .ok (idx, s') ∧
        idx.length = Int.toNat ⌊(nf : ℚ) * (1 - eps)⌋) ∧
    (∀ (nf : ℕ) (lmbd : ℚ) (s : RState),
      ctrlSize nf 1 = 0 ∧
      canardShapes nf lmbd 1 s = .ok (List.replicate nf 1, List.replicate nf 1, s)) ∧
    (∀ (n_feat n_cat : ℤ) (rate : List ℕ) (lmbd : ℤ) (env : Env) (s : RState),
      1 < n_feat → 1 < n_cat → 1 ≤ lmbd →
      (∀ p q u : ℚ, 0 < env.beta p q u ∧ env.beta p q u ≤ 1) →
      ∃ X y, canard n_feat n_cat rate (.pint lmbd) 1 env s = .ok (X, y)) := by
  refine ⟨?_, ?_, ?_⟩
  · intro nf eps s he0 _
    exact ⟨(pickAux (ctrlSize nf eps) (List.range nf) s).1,
           (pickAux (ctrlSize nf eps) (List.range nf) s).2,
           choiceE_ok _ (ctrlSize_le nf he0), pickAux_length _ _ _⟩
  · intro nf lmbd s
    have h0 : ctrlSize nf 1 = 0 := by simp [ctrlSize]
    refine ⟨h0, ?_⟩
    rw [canardShapes, canardIdx, h0, choiceE, if_pos (Nat.zero_le nf)]
    rfl
  · intro n_feat n_cat rate lmbd env s h1 h2 h3 hbeta
    obtain ⟨X, y, hok, _⟩ := canard_ok n_feat n_cat rate lmbd 1 env s h1 h2 h3
      (by norm_num) le_rfl hbeta
    exact ⟨X, y, hok⟩

theorem canard_controlled_subset_witness :
    (∃ idx s', canardIdx 10 (3/10) halfTape = .ok (idx, s') ∧
      idx.length = Int.toNat ⌊((10 : ℕ) : ℚ) * (1 - 3/10)⌋) ∧
    (ctrlSize 4 1 = 0 ∧
      canardShapes 4 5 1 halfTape
        = .ok (List.replicate 4 1, List.replicate 4 1, halfTape)) ∧
    (∃ X y, canard 3 2 [2] (.pint 7) 1 halfEnv halfTape = .ok (X, y)) :=
  ⟨canard_controlled_subset.1 10 (3/10) halfTape (by norm_num) (by norm_num),
   canard_controlled_subset.2.1 4 5 halfTape,
   canard_controlled_subset.2.2 3 2 [2] 7 halfEnv halfTape (by norm_num) (by norm_num)
     (by norm_num) (fun p q u => by constructor <;> norm_num [halfEnv])⟩

lemma pdCut_zero (nc : ℕ) : pdCut nc 0 = none := by
  rw [pdCut, List.find?_eq_none]
  intro c hc
  simp only [decide_eq_true_eq]
  rintro ⟨hlt, _⟩
  have hcn : c ≤ nc := by
    have := List.mem_range.mp hc
    omega
  rw [pyBins_getD hcn] at hlt
  have h0 : (0 : ℚ) ≤ (c : ℚ) / (nc : ℚ) := by positivity
  linarith

lemma canardRow_zero_beta (nc : ℕ) (a b : List ℚ) (j : ℕ) (js : List ℕ) (s : RState) :
    canardRow zeroBetaEnv nc a b (j :: js) s = .error .nanCast := by
  simp only [canardRow]
  have hb : zeroBetaEnv.beta (a.getD j 1) (b.getD j 1) (s.tape s.pos) = 0 := rfl
  rw [hb, pdCut_zero]

lemma canardExamples_zero_beta (nc nf : ℕ) (hnf : 1 ≤ nf) (a b : List ℚ) (m : ℕ)
    (s : RState) :
    canardExamples zeroBetaEnv nc nf a b (m + 1) s = .error .nanCast := by
  simp only [canardExamples]
  cases nf with
  | zero => omega
  | succ nf2 =>
    rw [List.range_succ_eq_map, canardRow_zero_beta]

lemma canard_zero_beta (n_feat n_cat : ℤ) (m : ℕ) (rest : List ℕ) (lmbd : ℤ)
    (eps : ℚ) (s : RState) (h1 : 1 < n_feat) (h2 : 1 < n_cat) (h3 : 1 ≤ lmbd)
    (h4 : 0 ≤ eps) (h5 : eps ≤ 1) :
    canard n_feat n_cat ((m + 1) :: rest) (.pint lmbd) eps zeroBetaEnv s
      = .error .nanCast := by
  obtain ⟨a, b, s1, hsh⟩ := canardShapes_ok n_feat.toNat (PyNum.pint lmbd).toQ h4 s
  have hint : (PyNum.pint lmbd).isInt = true ∧ 1 ≤ (PyNum.pint lmbd).toQ := by
    refine ⟨rfl, ?_⟩
    show (1 : ℚ) ≤ (lmbd : ℚ)
    exact_mod_cast h3
  rw [canard, if_neg (not_not_intro h1), if_neg (not_not_intro h2),
      if_neg (not_not_intro hint), if_neg (not_not_intro ⟨h4, h5⟩)]
  have hcl : canardClusters zeroBetaEnv n_feat.toNat n_cat.toNat (PyNum.pint lmbd).toQ
      eps ((m + 1) :: rest) 0 s = .error .nanCast := by
    simp only [canardClusters]
    rw [hsh]
    show (match canardExamples zeroBetaEnv n_cat.toNat n_feat.toNat a b (m + 1) s1 with
      | Except.error e => Except.error e
      | Except.ok (rows, s2) =>
          match canardClusters zeroBetaEnv n_feat.toNat n_cat.toNat (PyNum.pint lmbd).toQ
              eps rest (0 + 1) s2 with
          | Except.error e => Except.error e
          | Except.ok (X2, y2, s3) =>
              Except.ok (rows ++ X2, List.replicate (m + 1) 0 ++ y2, s3))
      = Except.error Err.nanCast
    rw [canardExamples_zero_beta n_cat.toNat n_feat.toNat (by omega) a b m s1]
  rw [hcl]

/-- C10: the binning of `canard` is partial at 0 — a Beta sample `x` is
assigned a category index in `{0, …, n_cat-1}` precisely when
`x ∈ (0, 1]`; a sample exactly equal to 0 falls outside every
right-closed bin (`pd.cut` yields NaN, whose int64 cast fails), so the
generator is total only under the hypothesis that every Beta draw is
strictly positive: with a Beta sampler pinned to 0 any nonempty cluster
makes the call fail with the NaN-cast error, while with samples in
`(0, 1]` the call always succeeds. -/
theorem canard_binning_partial_at_zero :
    (∀ (nc : ℕ) (x : ℚ), 1 ≤ nc → ((pdCut nc x).isSome = true ↔ (0 < x ∧ x ≤ 1))) ∧
    (∀ nc : ℕ, pdCut nc 0 = none) ∧
    (∀ (n_feat n_cat : ℤ) (m : ℕ) (rest : List ℕ) (lmbd : ℤ) (eps : ℚ) (s : RState),
      1 < n_feat → 1 < n_cat → 1 ≤ lmbd → 0 ≤ eps → eps ≤ 1 →
      canard n_feat n_cat ((m + 1) :: rest) (.pint lmbd) eps zeroBetaEnv s
        = .error .nanCast) ∧
    (∀ (n_feat n_cat : ℤ) (rate : List ℕ) (lmbd : ℤ) (eps : ℚ) (env : Env) (s : RState),
      1 < n_feat → 1 < n_cat → 1 ≤ lmbd → 0 ≤ eps → eps ≤ 1 →
      (∀ p q u : ℚ, 0 < env.beta p q u ∧ env.beta p q u ≤ 1) →
      ∃ X y, canard n_feat n_cat rate (.pint lmbd) eps env s = .ok (X, y)) := by
  refine ⟨fun nc x h => pdCut_isSome_iff h x, pdCut_zero, ?_, ?_⟩
  · intro n_feat n_cat m rest lmbd eps s h1 h2 h3 h4 h5
    exact canard_zero_beta n_feat n_cat m rest lmbd eps s h1 h2 h3 h4 h5
  · intro n_feat n_cat rate lmbd eps env s h1 h2 h3 h4 h5 hbeta
    obtain ⟨X, y, hok, _⟩ := canard_ok n_feat n_cat rate lmbd eps env s h1 h2 h3 h4 h5 hbeta
    exact ⟨X, y, hok⟩

theorem canard_binning_partial_at_zero_witness :
    ((pdCut 2 (1/2)).isSome = true ↔ (0 < (1/2 : ℚ) ∧ (1/2 : ℚ) ≤ 1)) ∧
    canard 2 2 [1] (.pint 1) 0 zeroBetaEnv halfTape = .error .nanCast ∧
    (∃ X y, canard 3 2 [1] (.pint 2) (1/2) halfEnv halfTape = .ok (X, y)) :=
  ⟨canard_binning_partial_at_zero.1 2 (1/2) (by norm_num),
   canard_binning_partial_at_zero.2.2.1 2 2 0 [] 1 0 halfTape (by norm_num) (by norm_num)
     (by norm_num) (by norm_num) (by norm_num),
   canard_binning_partial_at_zero.2.2.2 3 2 [1] 2 (1/2) halfEnv halfTape (by norm_num)
     (by norm_num) (by norm_num) (by norm_num) (by norm_num)
     (fun p q u => by constructor <;> norm_num [halfEnv])⟩
